import Mathlib

/-!
Shallow embedding of the bril-nw compiler middle-end (basic-block
construction, CFG, dominator analysis, SSA conversion, and the LVN / DCE
optimization passes) together with theorems settling the claims about it.

Rust collections are modelled as follows: `Vec` as `List`, `HashSet` of
block ids as `Finset ℕ`, `HashMap` either as an association list (when
insertion order or entry counting matters) or as a total function with an
explicit default (mirroring `get(..).unwrap_or(..)` / `entry(..).or_insert`).
Rust panics (`unwrap` on `None`, index underflow) are modelled by `Option` /
`Except`: `none` / `.error` is the panic outcome.
-/

deriving instance DecidableEq for Except

namespace BrilNW

/-- Ty mirrors `Type` in bril/types.rs. -/
inductive Ty
  | Int
  | Bool
  | Unit
deriving DecidableEq

/-- Val mirrors `Value` in bril/types.rs (i32 modelled as Int). -/
inductive Val
  | IntV (i : Int)
  | BoolV (b : Bool)
deriving DecidableEq

/-- OpCode mirrors `OpCode` in bril/types.rs. -/
inductive OpCode
  | Id
  | Const
  | Add
  | Mul
  | LessThan
  | Print
  | Jump
  | Branch
  | Ret
  | Phi
deriving DecidableEq

/-- The canonical textual form of an opcode (`Display for OpCode`). -/
def opcode_display : OpCode → String
  | .Id => "id"
  | .Const => "const"
  | .Add => "add"
  | .Mul => "mul"
  | .LessThan => "lt"
  | .Jump => "jmp"
  | .Branch => "br"
  | .Ret => "ret"
  | .Print => "print"
  | .Phi => "phi"

/-- The textual form of a literal (`Display for Value`). -/
def val_display : Val → String
  | .IntV i => toString i
  | .BoolV b => if b then "true" else "false"

structure ConstInstruction where
  op : OpCode
  dest : String
  instr_type : Ty
  value : Val
deriving DecidableEq

structure ValueInstruction where
  op : OpCode
  dest : String
  instr_type : Ty
  args : List String
  funcs : List String
  labels : List String
deriving DecidableEq

structure EffectInstruction where
  op : OpCode
  args : List String
  funcs : List String
  labels : List String
deriving DecidableEq

/-- Instruction mirrors the four-variant `Instruction` enum in bril/types.rs. -/
inductive Instruction
  | Const : ConstInstruction → Instruction
  | Value : ValueInstruction → Instruction
  | Effect : EffectInstruction → Instruction
  | Label : String → Instruction
deriving DecidableEq

namespace Instruction

def is_instr : Instruction → Bool
  | .Const _ => true
  | .Value _ => true
  | .Effect _ => true
  | .Label _ => false

def is_label : Instruction → Bool
  | .Label _ => true
  | _ => false

def is_const : Instruction → Bool
  | .Const _ => true
  | _ => false

def is_value : Instruction → Bool
  | .Value _ => true
  | _ => false

def is_effect : Instruction → Bool
  | .Effect _ => true
  | _ => false

def get_op_code : Instruction → Option OpCode
  | .Const c => some c.op
  | .Value v => some v.op
  | .Effect e => some e.op
  | .Label _ => none

/-- is_jump: the opcode (of a non-label instruction) is Branch or Jump. -/
def is_jump (i : Instruction) : Bool :=
  i.is_instr && (i.get_op_code = some .Branch || i.get_op_code = some .Jump)

def is_ret (i : Instruction) : Bool :=
  i.is_instr && i.get_op_code = some .Ret

/-- get_jump_target returns the labels of an Effect instruction only. -/
def get_jump_target : Instruction → Option (List String)
  | .Effect e => some e.labels
  | _ => none

def get_label : Instruction → Option String
  | .Label l => some l
  | _ => none

def get_dest : Instruction → Option String
  | .Const c => some c.dest
  | .Value v => some v.dest
  | _ => none

def set_dest (i : Instruction) (new_dest : String) : Instruction :=
  match i with
  | .Const c => .Const { c with dest := new_dest }
  | .Value v => .Value { v with dest := new_dest }
  | i => i

def get_args_copy : Instruction → List String
  | .Value v => v.args
  | .Effect e => e.args
  | _ => []

def get_args : Instruction → Option (List String)
  | .Value v => some v.args
  | .Effect e => some e.args
  | _ => none

def get_const_value : Instruction → Option Val
  | .Const c => some c.value
  | _ => none

def get_type : Instruction → Option Ty
  | .Const c => some c.instr_type
  | .Value v => some v.instr_type
  | _ => none

def get_funcs_copy : Instruction → Option (List String)
  | .Value v => some v.funcs
  | .Effect e => some e.funcs
  | _ => none

def get_labels_copy : Instruction → Option (List String)
  | .Value v => some v.labels
  | .Effect e => some e.labels
  | _ => none

end Instruction

/-- new_value mirrors `Instruction::new_value`. -/
def new_value (op : OpCode) (dest : String) (instr_type : Ty) (args funcs labels : List String) :
    Instruction :=
  .Value ⟨op, dest, instr_type, args, funcs, labels⟩

/-- TERMINATOR_INSTS membership from basicblock.rs. -/
def is_terminator_op : OpCode → Bool
  | .Branch => true
  | .Jump => true
  | .Ret => true
  | _ => false

/-- BasicBlock mirrors `BasicBlock` in basicblock.rs (name already resolved). -/
structure BasicBlock where
  id : ℕ
  name : String
  instrs : List Instruction
deriving DecidableEq

/-- Function mirrors `Function` in bril/types.rs (args as name/type pairs). -/
structure Func where
  name : String
  return_type : Ty
  args : List (String × Ty)
  instrs : List Instruction
deriving DecidableEq

/-- FunctionBlocks mirrors `FunctionBlocks` in basicblock.rs; the two hash
maps are kept as association lists whose lookup takes the most recent
insertion (entries are prepended). -/
structure FunctionBlocks where
  name : String
  args : List (String × Ty)
  blocks : List BasicBlock
  block_id_to_idx : List (ℕ × ℕ)
  block_name_to_id : List (String × ℕ)
deriving DecidableEq

/-- Association-list lookup (first match wins, so prepending overwrites). -/
def alookup {α β : Type} [DecidableEq α] : List (α × β) → α → Option β
  | [], _ => none
  | (k, v) :: rest, a => if a = k then some v else alookup rest a

/-- LoaderState mirrors the mutable fields of `FunctionBlocksLoader`. -/
structure LoaderState where
  cur_id : ℕ
  block_id_to_idx : List (ℕ × ℕ)
  block_name_to_id : List (String × ℕ)
  already_used_labels : List String
  blocks : List BasicBlock
  load_errors : List String

def initLoaderState : LoaderState := ⟨0, [], [], [], [], []⟩

/-- The name a block gets in `FunctionBlocksLoader::add_block`: the leading
label's text if the buffer starts with a label, else `block_<id>`. -/
def block_name_of (buf : List Instruction) (new_id : ℕ) : String :=
  match buf.head? with
  | some (.Label l) => l
  | _ => "block_" ++ toString new_id

/-- add_block mirrors `FunctionBlocksLoader::add_block`: assign the next id,
name the block, record a duplicate-label diagnostic when the name was already
used, and append the block. -/
def add_block (s : LoaderState) (buf : List Instruction) : LoaderState :=
  let new_id := s.cur_id
  let bname := block_name_of buf new_id
  let errs :=
    if bname ∈ s.already_used_labels then
      s.load_errors ++ ["Label " ++ bname ++ " has been used multiple times"]
    else
      s.load_errors
  { cur_id := new_id + 1
    block_id_to_idx := (new_id, s.blocks.length) :: s.block_id_to_idx
    block_name_to_id := (bname, new_id) :: s.block_name_to_id
    already_used_labels := bname :: s.already_used_labels
    blocks := s.blocks ++ [⟨new_id, bname, buf⟩]
    load_errors := errs }

/-- The instruction walk of `FunctionBlocksLoader::load`: a terminator closes
the current buffer, a label closes a non-empty buffer and starts the next
block, and end of input flushes a non-empty buffer. -/
def load_go (s : LoaderState) (buf : List Instruction) : List Instruction → LoaderState
  | [] => if buf.isEmpty then s else add_block s buf
  | i :: rest =>
    if i.is_instr then
      let buf' := buf ++ [i]
      if is_terminator_op ((i.get_op_code).getD .Id) then
        load_go (add_block s buf') [] rest
      else
        load_go s buf' rest
    else
      if buf.isEmpty then
        load_go s [i] rest
      else
        load_go (add_block s buf) [i] rest

/-- The final loader state after walking the whole instruction list. -/
def run_loader (f : Func) : LoaderState :=
  load_go initLoaderState [] f.instrs

/-- load mirrors `FunctionBlocksLoader::load`: walk the full instruction
list, then fail with the accumulated diagnostics if there are any. -/
def load (f : Func) : Except (List String) FunctionBlocks :=
  let s := run_loader f
  if s.load_errors.isEmpty then
    .ok ⟨f.name, f.args, s.blocks, s.block_id_to_idx, s.block_name_to_id⟩
  else
    .error s.load_errors

/-- Modelled from the spec: `FunctionBlocks::get_block_idx_by_name` is called
from cfg/graph.rs but its definition is not part of the sources; per §4.2 a
branch target is resolved "via the function's name→id map". -/
def get_block_idx_by_name (fb : FunctionBlocks) (target : String) : Option ℕ :=
  alookup fb.block_name_to_id target

/-- ControlFlowGraph mirrors `ControlFlowGraph` in cfg/graph.rs; the two edge
hash maps are total functions into `Option (List ℕ)` (`none` models an absent
key, which `find_dominators` treats differently from an empty list). -/
structure Cfg where
  predecessors : ℕ → Option (List ℕ)
  successors : ℕ → Option (List ℕ)
  all_block_ids : List ℕ

/-- Append `v` to the edge list of key `k`, creating the entry if absent
(the push-or-insert pattern used for predecessor edges). -/
def edge_push (m : ℕ → Option (List ℕ)) (k v : ℕ) : ℕ → Option (List ℕ) :=
  fun b => if b = k then some ((m k).getD [] ++ [v]) else m b

/-- Plain `HashMap::insert` for edge maps. -/
def edge_insert (m : ℕ → Option (List ℕ)) (k : ℕ) (v : List ℕ) : ℕ → Option (List ℕ) :=
  fun b => if b = k then some v else m b

/-- One iteration of the block loop of `create_from_basic_blocks` for the
block at position `i`. `none` models the panics: the `instrs.len() - 1`
underflow on an empty block, and `get_jump_target().unwrap()` on a non-Effect
instruction whose opcode is a jump. -/
def cfb_step (fb : FunctionBlocks) (num_blocks : ℕ)
    (st : (ℕ → Option (List ℕ)) × (ℕ → Option (List ℕ)) × List ℕ)
    (ib : ℕ × BasicBlock) :
    Option ((ℕ → Option (List ℕ)) × (ℕ → Option (List ℕ)) × List ℕ) := do
  let (preds, succs, ids) := st
  let (i, b) := ib
  let last ← b.instrs.getLast?
  let ids' := ids ++ [b.id]
  if last.is_jump then
    let targets ← last.get_jump_target
    let target_idxs := targets.filterMap (get_block_idx_by_name fb)
    let preds' := target_idxs.foldl (fun m t => edge_push m t b.id) preds
    pure (preds', edge_insert succs b.id target_idxs, ids')
  else if last.is_ret then
    pure (preds, succs, ids')
  else if i < num_blocks - 1 then
    pure (edge_push preds (i + 1) b.id, edge_insert succs b.id [i + 1], ids')
  else
    pure (preds, succs, ids')

/-- create_from_basic_blocks mirrors `ControlFlowGraph::create_from_basic_blocks`;
`none` is the panic outcome. -/
def create_from_basic_blocks (fb : FunctionBlocks) : Option Cfg :=
  (fb.blocks.enum.foldlM (cfb_step fb fb.blocks.length)
      (fun _ => none, fun _ => none, [])).map
    (fun r => ⟨r.1, r.2.1, r.2.2⟩)

/-- The `dominators.get(id).map_or(HashSet::new(), clone)` lookup: the map's
keys are exactly `all_block_ids`. -/
def dom_getD (C : Cfg) (d : ℕ → Finset ℕ) (p : ℕ) : Finset ℕ :=
  if p ∈ C.all_block_ids then d p else ∅

/-- Intersection of the predecessor dominator estimates: the fold starts from
the first estimate, and an empty list yields the empty set. -/
def inter_ests : List (Finset ℕ) → Finset ℕ
  | [] => ∅
  | e :: rest => rest.foldl (· ∩ ·) e

/-- The body of the inner `for block_id in all_block_ids` loop of
`find_dominators`: a block without a predecessor entry is skipped; otherwise
its set becomes `{b} ∪ ⋂ DOM(p)` and the change flag is or-ed. -/
def dom_pass_block (C : Cfg) (st : (ℕ → Finset ℕ) × Bool) (b : ℕ) :
    (ℕ → Finset ℕ) × Bool :=
  match C.predecessors b with
  | none => st
  | some ps =>
    let d := st.1
    let new_set := insert b (inter_ests (ps.map (dom_getD C d)))
    (Function.update d b new_set, st.2 || decide (d b ≠ new_set))

/-- One full pass over all blocks, starting with a cleared change flag. -/
def dom_pass (C : Cfg) (d : ℕ → Finset ℕ) : (ℕ → Finset ℕ) × Bool :=
  C.all_block_ids.foldl (dom_pass_block C) (d, false)

/-- Initialization of `find_dominators`: `DOM(0) = {0}` and every other block
starts at the full block set. -/
def dom_init (C : Cfg) : ℕ → Finset ℕ :=
  fun b => if b = 0 then {0} else C.all_block_ids.toFinset

/-- The `while should_continue` loop, with a fuel bound on the number of
passes. The theorems below prove the flag goes false within `dom_fuel`, so
the fuel is only a recursion bound, not an observable cutoff. -/
def find_dominators_loop (C : Cfg) : ℕ → (ℕ → Finset ℕ) → (ℕ → Finset ℕ)
  | 0, d => d
  | fuel + 1, d =>
    let r := dom_pass C d
    if r.2 then find_dominators_loop C fuel r.1 else r.1

def dom_fuel (C : Cfg) : ℕ :=
  C.all_block_ids.length * C.all_block_ids.length + 3

/-- find_dominators mirrors `ControlFlowGraph::find_dominators`. -/
def find_dominators (C : Cfg) : ℕ → Finset ℕ :=
  find_dominators_loop C (dom_fuel C) (dom_init C)

/-- retain_only_strict_dominators removes each block from its own set. -/
def retain_only_strict_dominators (dominators : ℕ → Finset ℕ) : ℕ → Finset ℕ :=
  fun b => (dominators b).erase b

/-- The backward BFS of `find_immediate_dominator`: pop from the front,
return the first node lying in the strict-dominator set, otherwise close the
node and push its not-yet-closed predecessors; an exhausted worklist returns
0. The fuel only bounds the recursion (the Rust loop terminates; every
concrete evaluation below returns well before exhaustion). -/
def idom_bfs (C : Cfg) (block_dominators : Finset ℕ) :
    ℕ → List ℕ → Finset ℕ → ℕ
  | _, [], _ => 0
  | 0, _ :: _, _ => 0
  | fuel + 1, next :: rest, closed =>
    if next ∈ block_dominators then next
    else
      let closed' := insert next closed
      let pushes := ((C.predecessors next).getD []).filter (fun p => p ∉ closed')
      idom_bfs C block_dominators fuel (rest ++ pushes) closed'

def bfs_fuel (C : Cfg) : ℕ :=
  (C.all_block_ids.length +
      (C.all_block_ids.map (fun b => ((C.predecessors b).getD []).length)).sum + 1) ^ 2 + 1

/-- find_immediate_dominator mirrors the BFS of cfg/graph.rs: the worklist
starts from the block's predecessors and the block itself is closed from the
start. -/
def find_immediate_dominator (C : Cfg) (block_id : ℕ) (block_dominators : Finset ℕ) : ℕ :=
  idom_bfs C block_dominators (bfs_fuel C) ((C.predecessors block_id).getD []) {block_id}

/-- find_immediate_dominators: every non-entry block gets an entry. -/
def find_immediate_dominators (C : Cfg) (dominators : ℕ → Finset ℕ) : ℕ → Option ℕ :=
  fun b =>
    if b ∈ C.all_block_ids ∧ b ≠ 0 then
      some (find_immediate_dominator C b (dominators b))
    else none

/-- create_dominator_tree inverts the immediate-dominator map (absent keys
read as the empty child set). -/
def create_dominator_tree (C : Cfg) (dominators : ℕ → Finset ℕ) : ℕ → Finset ℕ :=
  let strict := retain_only_strict_dominators dominators
  let idoms := find_immediate_dominators C strict
  fun i => (C.all_block_ids.filter (fun b => idoms b = some i)).toFinset

/-- get_dominance_frontier mirrors cfg/graph.rs: S is the block together with
its dominator-tree children, and the result is the successors of S minus S
itself (including the block). -/
def get_dominance_frontier (C : Cfg) (dominator_tree : ℕ → Finset ℕ) (block_id : ℕ) :
    Finset ℕ :=
  let dominated_nodes := insert block_id (dominator_tree block_id)
  let all_successors :=
    dominated_nodes.biUnion (fun x => ((C.successors x).getD []).toFinset)
  all_successors \ dominated_nodes

/-- All instructions of a function in order. -/
def function_instrs (f : FunctionBlocks) : List Instruction :=
  (f.blocks.map (·.instrs)).flatten

/-- The used-argument set collected by `delete_unused_vars`. -/
def used_args (f : FunctionBlocks) : Finset String :=
  ((function_instrs f).flatMap Instruction.get_args_copy).toFinset

/-- The destination set collected by `delete_unused_vars`. -/
def dest_set (f : FunctionBlocks) : Finset String :=
  ((function_instrs f).filterMap Instruction.get_dest).toFinset

/-- delete_unused_vars mirrors opt/global/dead_code_elimination.rs: drop every
instruction whose destination is in `dests \ used_args`; the flag says whether
that difference was non-empty. -/
def delete_unused_vars (f : FunctionBlocks) : FunctionBlocks × Bool :=
  let unused := dest_set f \ used_args f
  let f' :=
    { f with
      blocks := f.blocks.map (fun b =>
        { b with
          instrs := b.instrs.filter (fun i =>
            match i.get_dest with
            | none => true
            | some d => !(decide (d ∈ unused))) }) }
  (f', decide (0 < unused.card))

def dce_size (f : FunctionBlocks) : ℕ :=
  (f.blocks.map (fun b => b.instrs.length)).sum

/-- The `loop` of `DeadCodeElimination::run`, with fuel. A true flag deletes
at least one instruction, so `dce_size f + 1` passes always reach the break. -/
def dce_loop : ℕ → FunctionBlocks → FunctionBlocks
  | 0, f => f
  | fuel + 1, f =>
    let r := delete_unused_vars f
    if r.2 then dce_loop fuel r.1 else r.1

namespace DeadCodeElimination

/-- DeadCodeElimination::run: delete unused vars until convergence. -/
def run (f : FunctionBlocks) : FunctionBlocks :=
  dce_loop (dce_size f + 1) f

end DeadCodeElimination

structure LVNCanonicalExpression where
  op : String
  args : List ℕ
deriving DecidableEq

/-- The mutable state of `LocalValueNumbering`, as association lists with
first-match lookup (entries are prepended, mirroring HashMap overwrite). -/
structure LVNState where
  env : List (String × ℕ)
  table : List (LVNCanonicalExpression × ℕ)
  names : List (ℕ × String)

def canonicalize_const_instr (i : Instruction) : LVNCanonicalExpression :=
  ⟨"const_" ++ val_display (i.get_const_value.getD (.IntV 0)), []⟩

/-- Map argument names to their value numbers; `none` if any is undeclared. -/
def arg_ordinals (env : List (String × ℕ)) : List String → Option (List ℕ)
  | [] => some []
  | a :: rest => do
    let o ← alookup env a
    let os ← arg_ordinals env rest
    pure (o :: os)

def canonicalize_value_instr (env : List (String × ℕ)) (i : Instruction) :
    Option LVNCanonicalExpression := do
  let os ← arg_ordinals env (i.get_args.getD [])
  pure ⟨opcode_display (i.get_op_code.getD .Id), os⟩

/-- canonicalize_instruction: labels and effects yield nothing; a failed value
canonicalization (undeclared argument) bails out. -/
def canonicalize_instruction (s : LVNState) (i : Instruction) :
    Option LVNCanonicalExpression :=
  if i.is_const then some (canonicalize_const_instr i)
  else if i.is_value then canonicalize_value_instr s.env i
  else none

/-- register_canonicalized_instr: a new canonical expression gets the next
ordinal (the current table size) with the instruction's destination as its
canonical name; an existing one only binds the destination in the env. -/
def register_canonicalized_instr (s : LVNState) (i : Instruction)
    (canon : LVNCanonicalExpression) : LVNState × Bool × ℕ :=
  match alookup s.table canon with
  | none =>
    let new_ordinal := s.table.length
    let canonical_name := i.get_dest.getD ""
    (⟨(canonical_name, new_ordinal) :: s.env,
      (canon, new_ordinal) :: s.table,
      (new_ordinal, canonical_name) :: s.names⟩, true, new_ordinal)
  | some o => ({ s with env := (i.get_dest.getD "", o) :: s.env }, false, o)

/-- reconstruct_instruction mirrors opt/local/lvn.rs: only value instructions
are rewritten; an existing entry becomes `id <canonical name>`, a new one
keeps its opcode with operand names replaced by canonical names. -/
def reconstruct_instruction (s : LVNState) (i : Instruction)
    (canon : LVNCanonicalExpression) (is_new_entry : Bool) (ordinal : ℕ) : Instruction :=
  if !i.is_value then i
  else if !is_new_entry then
    match alookup s.names ordinal with
    | none => i
    | some existing_canonical_name =>
      new_value .Id (i.get_dest.getD "") (i.get_type.getD .Unit)
        [existing_canonical_name] [] []
  else
    let updated_args := canon.args.filterMap (alookup s.names)
    if updated_args.length ≠ canon.args.length then i
    else
      new_value (i.get_op_code.getD .Id) (i.get_dest.getD "") (i.get_type.getD .Unit)
        updated_args (i.get_funcs_copy.getD []) (i.get_labels_copy.getD [])

/-- One iteration of the instruction loop of `LocalValueNumbering::run`. -/
def lvn_step (s : LVNState) (i : Instruction) : LVNState × Instruction :=
  match canonicalize_instruction s i with
  | none => (s, i)
  | some canon =>
    let r := register_canonicalized_instr s i canon
    (r.1, reconstruct_instruction r.1 i canon r.2.1 r.2.2)

def lvn_run_instrs (s : LVNState) : List Instruction → LVNState × List Instruction
  | [] => (s, [])
  | i :: rest =>
    let r := lvn_step s i
    let r' := lvn_run_instrs r.1 rest
    (r'.1, r.2 :: r'.2)

namespace LocalValueNumbering

/-- LocalValueNumbering::run on a block, starting from the empty tables. -/
def run (b : BasicBlock) : BasicBlock :=
  { b with instrs := (lvn_run_instrs ⟨[], [], []⟩ b.instrs).2 }

end LocalValueNumbering

structure SSAStack where
  stack : List String
  next_name_id : ℕ
deriving DecidableEq

namespace SSAStack

def new : SSAStack := ⟨[], 1⟩

def is_empty (s : SSAStack) : Bool := s.stack.length = 0

/-- peek returns the top of the stack (modelled as the list head). -/
def peek (s : SSAStack) : Option String := s.stack.head?

/-- create_new_name formats `<old>.<n>`, pushes it and bumps the counter. -/
def create_new_name (s : SSAStack) (old_name : String) : String × SSAStack :=
  let result := old_name ++ "." ++ toString s.next_name_id
  (result, ⟨result :: s.stack, s.next_name_id + 1⟩)

end SSAStack

/-- find_all_vars accumulator: record `(block_id, type)` for a destination,
creating the variable entry on first sight (insertion order preserved). -/
def all_vars_add (acc : List (String × List (ℕ × Ty))) (dest : String) (e : ℕ × Ty) :
    List (String × List (ℕ × Ty)) :=
  if (alookup acc dest).isSome then
    acc.map (fun kv =>
      if kv.1 = dest then (kv.1, if e ∈ kv.2 then kv.2 else kv.2 ++ [e]) else kv)
  else
    acc ++ [(dest, [e])]

/-- find_all_vars mirrors `SSABuilder::find_all_vars`. -/
def find_all_vars (blocks : List BasicBlock) : List (String × List (ℕ × Ty)) :=
  blocks.foldl (fun acc b =>
    b.instrs.foldl (fun acc i =>
      match i.get_dest, i.get_type with
      | some d, some t => all_vars_add acc d (b.id, t)
      | _, _ => acc) acc) []

/-- Ascending enumeration of a finite set of block ids (BTreeSet iteration
order / `sorted()`), written so that it reduces in the kernel. -/
def finset_asc_list (s : Finset ℕ) : List ℕ :=
  (List.range (s.sup id + 1)).filter (· ∈ s)

/-- The worklist loop of `insert_phi_nodes` for one variable: pop a defining
block, stage a Φ in every frontier block that lacks one for this variable,
and enqueue newly staged blocks. Frontier sets are iterated in ascending
order (BTreeSet). The fuel passed by `insert_phi_nodes` covers every pop:
each enqueue stages a Φ in a block that had none, which happens at most once
per block. -/
def stage_phis_for_var (C : Cfg) (tree : ℕ → Finset ℕ) (var : String) :
    ℕ → List (ℕ × Ty) → (ℕ → List (String × Instruction)) →
    (ℕ → List (String × Instruction))
  | 0, _, staged => staged
  | _, [], staged => staged
  | fuel + 1, (block_id, var_type) :: queue, staged =>
    let df := finset_asc_list (get_dominance_frontier C tree block_id)
    let r := df.foldl (fun (st : (ℕ → List (String × Instruction)) × List (ℕ × Ty)) f =>
        if (alookup (st.1 f) var).isSome then st
        else
          let phi := new_value .Phi var var_type [] [] []
          (fun b => if b = f then st.1 f ++ [(var, phi)] else st.1 b,
            st.2 ++ [(f, var_type)])) (staged, [])
    stage_phis_for_var C tree var fuel (queue ++ r.2) r.1

/-- insert_phi_nodes mirrors `SSABuilder::insert_phi_nodes`. -/
def insert_phi_nodes (C : Cfg) (tree : ℕ → Finset ℕ)
    (all_vars : List (String × List (ℕ × Ty))) : ℕ → List (String × Instruction) :=
  all_vars.foldl (fun staged kv =>
    stage_phis_for_var C tree kv.1 (kv.2.length + C.all_block_ids.length + 1) kv.2 staged)
    (fun _ => [])

/-- Push a Φ-argument and its source label (the
`get_args_mut / get_labels_mut` pushes of the successor-Φ step). -/
def push_phi_arg (i : Instruction) (arg lbl : String) : Instruction :=
  match i with
  | .Value v => .Value { v with args := v.args ++ [arg], labels := v.labels ++ [lbl] }
  | i => i

/-- Errors of the SSA builder embedding. `phi_arg_stack_empty` is the
`peek().unwrap()` panic in the successor-Φ step of `rename_vars_rec`;
`no_block` the `get_mut_block_by_id(..).unwrap()` panic; `out_of_fuel` is
only a recursion bound (never reached on the inputs evaluated below). -/
inductive SSAErr
  | phi_arg_stack_empty (block_id : ℕ) (var : String)
  | no_block (block_id : ℕ)
  | out_of_fuel
deriving DecidableEq

/-- The mutable state of `SSABuilder` during renaming. -/
structure SSAState where
  blocks : List BasicBlock
  stks : String → SSAStack
  staged : ℕ → List (String × Instruction)
  rename_failures : List (ℕ × String)

def get_block_by_id (blocks : List BasicBlock) (id : ℕ) : Option BasicBlock :=
  blocks.find? (fun b => b.id = id)

def set_block_instrs (blocks : List BasicBlock) (id : ℕ) (instrs : List Instruction) :
    List BasicBlock :=
  blocks.map (fun b => if b.id = id then { b with instrs := instrs } else b)

/-- Argument renaming for one instruction: each argument is replaced by the
top of its stack; at the first empty stack a failure is recorded and the loop
breaks, leaving the remaining arguments (including the failed one) original. -/
def rename_args (stks : String → SSAStack) (block_id : ℕ) :
    List String → List String × List (ℕ × String)
  | [] => ([], [])
  | a :: rest =>
    if (stks a).is_empty then (a :: rest, [(block_id, a)])
    else
      let r := rename_args stks block_id rest
      (((stks a).peek.getD "") :: r.1, r.2)

/-- Bookkeeping for `num_names_created`: a total count function plus the key
list used at unwind time. -/
structure CreatedNames where
  count : String → ℕ
  keys : List String

def CreatedNames.bump (c : CreatedNames) (var : String) : CreatedNames :=
  ⟨Function.update c.count var (c.count var + 1),
    if var ∈ c.keys then c.keys else c.keys ++ [var]⟩

/-- The Φ-destination step of `rename_vars_rec`: allocate a new name for each
staged Φ of this block and write it into the Φ's destination. -/
def rename_phi_dests (block_id : ℕ) (st : SSAState) (created : CreatedNames) :
    SSAState × CreatedNames :=
  let r := (st.staged block_id).foldl
    (fun (acc : (String → SSAStack) × CreatedNames × List (String × Instruction)) kv =>
      let (stks, created, out) := acc
      let (new_dest, stk') := (stks kv.1).create_new_name kv.1
      (Function.update stks kv.1 stk', created.bump kv.1,
        out ++ [(kv.1, kv.2.set_dest new_dest)]))
    (st.stks, created, [])
  ({ st with
      stks := r.1
      staged := fun b => if b = block_id then r.2.2 else st.staged b }, r.2.1)

/-- The body-rewriting step of `rename_vars_rec` over one instruction. -/
def rename_body_instr (block_id : ℕ)
    (acc : (String → SSAStack) × CreatedNames × List (ℕ × String) × List Instruction)
    (i : Instruction) :
    (String → SSAStack) × CreatedNames × List (ℕ × String) × List Instruction :=
  let (stks, created, failures, out) := acc
  let i1 :=
    match i.get_args with
    | none => i
    | some args =>
      let r := rename_args stks block_id args
      match i with
      | .Value v => .Value { v with args := r.1 }
      | .Effect e => .Effect { e with args := r.1 }
      | i => i
  let new_failures :=
    match i.get_args with
    | none => []
    | some args => (rename_args stks block_id args).2
  match i1.get_dest with
  | none => (stks, created, failures ++ new_failures, out ++ [i1])
  | some old_dest =>
    let (new_dest, stk') := (stks old_dest).create_new_name old_dest
    (Function.update stks old_dest stk', created.bump old_dest,
      failures ++ new_failures, out ++ [i1.set_dest new_dest])

/-- The successor-Φ step of `rename_vars_rec` for one staged Φ of a successor:
push `(top-of-stack, current block name)`; an empty stack is the
`peek().unwrap()` panic. -/
def append_phi_args (block_id : ℕ) (block_name : String) (stks : String → SSAStack)
    (entries : List (String × Instruction)) :
    Except SSAErr (List (String × Instruction)) :=
  entries.foldlM (fun out kv => do
    match (stks kv.1).peek with
    | none => throw (.phi_arg_stack_empty block_id kv.1)
    | some top => pure (out ++ [(kv.1, push_phi_arg kv.2 top block_name)]))
    ([] : List (String × Instruction))

/-- The unwind step: drop from each touched stack the number of names this
block created (`truncate(len.saturating_sub(count))`, top at the head). -/
def unwind_stacks (stks : String → SSAStack) (created : CreatedNames) :
    String → SSAStack :=
  created.keys.foldl (fun stks var =>
    Function.update stks var
      ⟨(stks var).stack.drop (created.count var), (stks var).next_name_id⟩) stks

/-- rename_vars_rec mirrors `SSABuilder::rename_vars_rec`; the fuel bounds the
dominator-tree recursion depth. -/
def rename_vars_rec (C : Cfg) (tree : ℕ → Finset ℕ) :
    ℕ → ℕ → SSAState → Except SSAErr SSAState
  | 0, _, _ => throw .out_of_fuel
  | fuel + 1, block_id, st => do
    let block ←
      match get_block_by_id st.blocks block_id with
      | none => throw (.no_block block_id)
      | some b => pure b
    let (st1, created1) := rename_phi_dests block_id st ⟨fun _ => 0, []⟩
    let body := block.instrs.foldl (rename_body_instr block_id)
      (st1.stks, created1, st1.rename_failures, [])
    let st2 : SSAState :=
      { blocks := set_block_instrs st1.blocks block_id body.2.2.2
        stks := body.1
        staged := st1.staged
        rename_failures := body.2.2.1 }
    let created := body.2.1
    let block_name :=
      match get_block_by_id st2.blocks block_id with
      | some b => b.name
      | none => ""
    let st3 ← ((C.successors block_id).getD []).foldlM (fun (s : SSAState) succ_id => do
        let entries ← append_phi_args block_id block_name s.stks (s.staged succ_id)
        pure { s with staged := fun b => if b = succ_id then entries else s.staged b })
      st2
    let children := finset_asc_list (tree block_id)
    let st4 ← children.foldlM (fun s c => rename_vars_rec C tree fuel c s) st3
    pure { st4 with stks := unwind_stacks st4.stks created }

/-- finalize_phi_nodes mirrors `SSABuilder::finalize_phi_nodes`: splice the
staged Φ-nodes after a leading label, else at the block's front. -/
def finalize_phi_nodes (staged : ℕ → List (String × Instruction))
    (blocks : List BasicBlock) : List BasicBlock :=
  blocks.map (fun b =>
    match staged b.id with
    | [] => b
    | phis =>
      let phi_arr := phis.map (·.2)
      let combined :=
        match b.instrs with
        | i :: rest => if i.is_label then i :: (phi_arr ++ rest) else phi_arr ++ b.instrs
        | [] => phi_arr
      { b with instrs := combined })

/-- convert_to_ssa_form mirrors `ssa.rs`: find all variables, stage Φ-nodes,
rename from block 0 through the dominator tree, then splice the Φ-nodes. -/
def convert_to_ssa_form (fb : FunctionBlocks) (C : Cfg) (tree : ℕ → Finset ℕ) :
    Except SSAErr FunctionBlocks := do
  let all_vars := find_all_vars fb.blocks
  let staged := insert_phi_nodes C tree all_vars
  let st0 : SSAState := ⟨fb.blocks, fun _ => SSAStack.new, staged, []⟩
  let st ← rename_vars_rec C tree (fb.blocks.length + 1) 0 st0
  pure { fb with blocks := finalize_phi_nodes st.staged st.blocks }

/-- Modelled from the spec (§4.3): the operational dominance-frontier formula
`DF(b) = (⋃ x ∈ S, succ(x)) ∖ (S ∖ {b})` with `S = {b} ∪ children(b)`; unlike
the code, `b` itself is not subtracted. Used only to compare the spec's
formula against `get_dominance_frontier`. -/
def dominance_frontier_spec (C : Cfg) (dominator_tree : ℕ → Finset ℕ) (block_id : ℕ) :
    Finset ℕ :=
  let dominated_nodes := insert block_id (dominator_tree block_id)
  let all_successors :=
    dominated_nodes.biUnion (fun x => ((C.successors x).getD []).toFinset)
  all_successors \ (dominated_nodes.erase block_id)

/-- A two-block cycle in which the entry block is itself a branch target, as
produced for `.top: jmp .next; .next: jmp .top` (an edge back into the
entry). -/
def cfg_entry_loop : Cfg :=
  ⟨fun b => if b = 0 then some [1] else if b = 1 then some [0] else none,
   fun b => if b = 0 then some [1] else if b = 1 then some [0] else none,
   [0, 1]⟩

/-- A natural loop: entry 0 → header 1, header branches to body 2 and exit 3,
body jumps back to the header (back edge 2 → 1), exit returns. -/
def cfg_loop : Cfg :=
  ⟨fun b =>
      if b = 1 then some [0, 2]
      else if b = 2 then some [1]
      else if b = 3 then some [1]
      else none,
   fun b =>
      if b = 0 then some [1]
      else if b = 1 then some [2, 3]
      else if b = 2 then some [1]
      else none,
   [0, 1, 2, 3]⟩

/-- The if-diamond of spec §8 scenario 3, with `x` defined only in the then
branch: `c = const true; br c .T .F; .T: x = const 1; jmp .J; .F: jmp .J;
.J: print x`. -/
def diamond_func : Func :=
  ⟨"main", .Unit, [],
   [.Const ⟨.Const, "c", .Bool, .BoolV true⟩,
    .Effect ⟨.Branch, ["c"], [], ["T", "F"]⟩,
    .Label "T",
    .Const ⟨.Const, "x", .Int, .IntV 1⟩,
    .Effect ⟨.Jump, [], [], ["J"]⟩,
    .Label "F",
    .Effect ⟨.Jump, [], [], ["J"]⟩,
    .Label "J",
    .Effect ⟨.Print, ["x"], [], []⟩]⟩

def diamond_blocks : FunctionBlocks :=
  (load diamond_func).toOption.getD ⟨"", [], [], [], []⟩

def diamond_cfg : Cfg :=
  (create_from_basic_blocks diamond_blocks).getD ⟨fun _ => none, fun _ => none, []⟩

def diamond_tree : ℕ → Finset ℕ :=
  create_dominator_tree diamond_cfg (find_dominators diamond_cfg)

/-- The LVN seed block of spec §8 scenario 5 (and the lvn.rs test):
`a = const 4; b = const 2; s1 = add a b; s2 = add a b; p = mul s1 s2`. -/
def lvn_seed_block : BasicBlock :=
  ⟨0, "block_0",
   [.Const ⟨.Const, "a", .Int, .IntV 4⟩,
    .Const ⟨.Const, "b", .Int, .IntV 2⟩,
    .Value ⟨.Add, "s1", .Int, ["a", "b"], [], []⟩,
    .Value ⟨.Add, "s2", .Int, ["a", "b"], [], []⟩,
    .Value ⟨.Mul, "p", .Int, ["s1", "s2"], [], []⟩]⟩

/-- The DCE seed function of spec §8 scenario 6. -/
def dce_seed : FunctionBlocks :=
  ⟨"main", [],
   [⟨0, "block_0",
     [.Const ⟨.Const, "a", .Int, .IntV 4⟩,
      .Const ⟨.Const, "b", .Int, .IntV 2⟩,
      .Const ⟨.Const, "c", .Int, .IntV 1⟩,
      .Value ⟨.Add, "d", .Int, ["a", "b"], [], []⟩,
      .Value ⟨.Add, "e", .Int, ["c", "d"], [], []⟩,
      .Effect ⟨.Print, ["d"], [], []⟩]⟩],
   [(0, 0)], [("block_0", 0)]⟩

/-- A straight-line function with a label in the middle (spec §8 scenario 2):
`a = const 1; .L: b = const 2; jmp .L`. -/
def two_block_func : Func :=
  ⟨"f", .Unit, [],
   [.Const ⟨.Const, "a", .Int, .IntV 1⟩,
    .Label "L",
    .Const ⟨.Const, "b", .Int, .IntV 2⟩,
    .Effect ⟨.Jump, [], [], ["L"]⟩]⟩

/-- A function with the same user label twice. -/
def dup_label_func : Func :=
  ⟨"f", .Unit, [],
   [.Label "L",
    .Const ⟨.Const, "a", .Int, .IntV 1⟩,
    .Label "L",
    .Const ⟨.Const, "b", .Int, .IntV 2⟩]⟩

/-- A function whose generated entry name `block_0` collides with a later
user label. -/
def gen_collision_func : Func :=
  ⟨"f", .Unit, [],
   [.Const ⟨.Const, "a", .Int, .IntV 1⟩,
    .Label "block_0",
    .Const ⟨.Const, "b", .Int, .IntV 2⟩]⟩

/-- A CFG with an unreachable block 1 that has no predecessor entry
(block 0 is `ret`-terminated, block 1 never targeted). -/
def cfg_unreachable : Cfg :=
  ⟨fun _ => none, fun _ => none, [0, 1]⟩

/-- A FunctionBlocks containing an empty block. -/
def fb_empty_block : FunctionBlocks :=
  ⟨"f", [], [⟨0, "block_0", []⟩], [(0, 0)], [("block_0", 0)]⟩

/-- The id bookkeeping invariant of the loader. -/
def loader_ids_ok (s : LoaderState) : Prop :=
  s.cur_id = s.blocks.length ∧ s.blocks.map (·.id) = List.range s.blocks.length

/-- The label-position invariant: only the head of a block may be a label. -/
def tails_ok (bs : List BasicBlock) : Prop :=
  ∀ b ∈ bs, ∀ i ∈ b.instrs.tail, i.is_label = false

/-- The per-block projection onto instructions without a destination (plus
block identity); DCE must leave it untouched. -/
def nodest_proj (f : FunctionBlocks) : List (ℕ × String × List Instruction) :=
  f.blocks.map (fun b => (b.id, b.name, b.instrs.filter (fun i => i.get_dest.isNone)))

/-- The concatenation of the blocks' instruction sequences in block order. -/
def blocksJoin (bs : List BasicBlock) : List Instruction :=
  (bs.map (·.instrs)).flatten

/-- The names of the produced blocks, in block order. -/
def block_names (bs : List BasicBlock) : List String :=
  bs.map (·.name)

/-- The FunctionBlocks produced for `two_block_func`. -/
def two_block_fb : FunctionBlocks :=
  ⟨"f", [],
   [⟨0, "block_0", [.Const ⟨.Const, "a", .Int, .IntV 1⟩]⟩,
    ⟨1, "L", [.Label "L", .Const ⟨.Const, "b", .Int, .IntV 2⟩,
              .Effect ⟨.Jump, [], [], ["L"]⟩]⟩],
   [(1, 1), (0, 0)],
   [("L", 1), ("block_0", 0)]⟩

/-- The state-only effect of one block's update inside a `find_dominators`
pass (the first component of `dom_pass_block`). -/
def dom_step (C : Cfg) (d : ℕ → Finset ℕ) (b : ℕ) : ℕ → Finset ℕ :=
  match C.predecessors b with
  | none => d
  | some ps => Function.update d b (insert b (inter_ests (ps.map (dom_getD C d))))

/-- A pass over a suffix of the block list, state only. -/
def dom_pass_from (C : Cfg) (d : ℕ → Finset ℕ) (L : List ℕ) : ℕ → Finset ℕ :=
  L.foldl (dom_step C) d

/-- The dominator state after `k` full passes of `find_dominators`. -/
def dom_iter (C : Cfg) : ℕ → (ℕ → Finset ℕ)
  | 0 => dom_init C
  | k + 1 => dom_pass_from C (dom_iter C k) C.all_block_ids

/-- Pointwise order on dominator maps through the guarded lookup. -/
def dom_le (C : Cfg) (d e : ℕ → Finset ℕ) : Prop :=
  ∀ b, dom_getD C d b ⊆ dom_getD C e b

/-- Post-fixpoint: each block's recomputed set is below its current one. -/
def dom_post_fix (C : Cfg) (d : ℕ → Finset ℕ) : Prop :=
  ∀ b ∈ C.all_block_ids, ∀ ps, C.predecessors b = some ps →
    insert b (inter_ests (ps.map (dom_getD C d))) ⊆ d b

/-- Every block's set stays inside the full block set. -/
def dom_bounded (C : Cfg) (d : ℕ → Finset ℕ) : Prop :=
  ∀ c, dom_getD C d c ⊆ C.all_block_ids.toFinset

/-- Total size of the dominator sets over the blocks. -/
def dom_measure (C : Cfg) (d : ℕ → Finset ℕ) : ℕ :=
  (C.all_block_ids.map (fun b => (d b).card)).sum

/-- The loader's duplicate-name bookkeeping invariant: the used-label set
holds exactly the produced block names, and the number of diagnostics equals
the number of duplicate-name occurrences so far. -/
def dup_count_ok (s : LoaderState) : Prop :=
  (∀ x, x ∈ s.already_used_labels ↔ x ∈ block_names s.blocks) ∧
    s.load_errors.length + (block_names s.blocks).toFinset.card =
      (block_names s.blocks).length

/-- C1: on the natural loop (entry 0, header 1, body 2, exit 3 with back edge
2 → 1), `get_dominance_frontier` computes DF(header) = ∅ because it subtracts
the header itself along with its dominator-tree children, while the claimed
formula `(⋃ x ∈ S, succ(x)) ∖ (S ∖ {b})` — which does not subtract `b` —
yields DF(header) = {header}. So the code never places a loop header in its
own frontier, contradicting the claim (and spec scenario 4, `H ∈ DF(H)`). -/
theorem c1_dominance_frontier_header_missing :
    get_dominance_frontier cfg_loop
        (create_dominator_tree cfg_loop (find_dominators cfg_loop)) 1 = ∅ ∧
      dominance_frontier_spec cfg_loop
        (create_dominator_tree cfg_loop (find_dominators cfg_loop)) 1 = {1} := by
  constructor <;> decide

/-- C2: on the if-diamond where `x` is defined only in the then-branch, the
SSA builder reaches the successor-Φ step of block 2 (the else branch) with an
empty rename stack for `x` and panics (`peek().unwrap()` on `None`) instead
of skipping the entry: `convert_to_ssa_form` aborts rather than recording a
`(block, var)` rename failure. -/
theorem c2_rename_panics_on_empty_stack :
    convert_to_ssa_form diamond_blocks diamond_cfg diamond_tree =
      .error (.phi_arg_stack_empty 2 "x") := by
  decide

/-- C3: on a CFG whose entry block is a branch target (blocks 0 ⇄ 1),
`find_dominators` recomputes the entry's set like any other block, so at the
fixpoint DOM(entry) = {0, 1} instead of the claimed {entry} = {0}. -/
theorem c3_entry_dominators_not_singleton :
    find_dominators cfg_entry_loop 0 = {0, 1} := by
  decide

theorem add_block_blocks (s : LoaderState) (buf : List Instruction) :
    (add_block s buf).blocks = s.blocks ++ [⟨s.cur_id, block_name_of buf s.cur_id, buf⟩] :=
  rfl

theorem blocksJoin_append (bs : List BasicBlock) (b : BasicBlock) :
    blocksJoin (bs ++ [b]) = blocksJoin bs ++ b.instrs := by
  simp [blocksJoin]

theorem load_go_join : ∀ (rest : List Instruction) (s : LoaderState) (buf : List Instruction),
    blocksJoin (load_go s buf rest).blocks = blocksJoin s.blocks ++ buf ++ rest := by
  intro rest
  induction rest with
  | nil =>
    intro s buf
    by_cases h : buf.isEmpty
    · simp [load_go, h, List.isEmpty_iff.mp h]
    · simp [load_go, h, add_block_blocks, blocksJoin_append]
  | cons i rest ih =>
    intro s buf
    by_cases hi : i.is_instr
    · by_cases ht : is_terminator_op ((i.get_op_code).getD .Id)
      · simp [load_go, hi, ht, ih, add_block_blocks, blocksJoin_append]
      · simp [load_go, hi, ht, ih]
    · by_cases hb : buf.isEmpty
      · simp [load_go, hi, hb, ih, List.isEmpty_iff.mp hb]
      · simp [load_go, hi, hb, ih, add_block_blocks, blocksJoin_append]

theorem load_go_nonempty :
    ∀ (rest : List Instruction) (s : LoaderState) (buf : List Instruction),
      (∀ b ∈ s.blocks, b.instrs ≠ []) →
      ∀ b ∈ (load_go s buf rest).blocks, b.instrs ≠ [] := by
  have hadd : ∀ (s : LoaderState) (buf : List Instruction), buf ≠ [] →
      (∀ b ∈ s.blocks, b.instrs ≠ []) →
      ∀ b ∈ (add_block s buf).blocks, b.instrs ≠ [] := by
    intro s buf hbuf hs b hb
    rw [add_block_blocks] at hb
    rcases List.mem_append.mp hb with h | h
    · exact hs b h
    · simp only [List.mem_singleton] at h
      subst h
      exact hbuf
  intro rest
  induction rest with
  | nil =>
    intro s buf hs
    by_cases h : buf.isEmpty
    · simpa [load_go, h] using hs
    · exact fun b hb => hadd s buf (by simpa using h) hs b (by simpa [load_go, h] using hb)
  | cons i rest ih =>
    intro s buf hs
    by_cases hi : i.is_instr
    · by_cases ht : is_terminator_op ((i.get_op_code).getD .Id)
      · intro b hb
        refine ih (add_block s (buf ++ [i])) [] (hadd s (buf ++ [i]) (by simp) hs) b ?_
        simpa [load_go, hi, ht] using hb
      · intro b hb
        exact ih s (buf ++ [i]) hs b (by simpa [load_go, hi, ht] using hb)
    · by_cases hb : buf.isEmpty
      · intro b hmem
        exact ih s [i] hs b (by simpa [load_go, hi, hb] using hmem)
      · intro b hmem
        refine ih (add_block s buf) [i] (hadd s buf (by simpa using hb) hs) b ?_
        simpa [load_go, hi, hb] using hmem

theorem add_block_ids_ok (s : LoaderState) (buf : List Instruction)
    (h : loader_ids_ok s) : loader_ids_ok (add_block s buf) := by
  obtain ⟨h1, h2⟩ := h
  constructor
  · simp [add_block, h1]
  · simp [add_block_blocks, h1, h2, List.range_succ]

theorem load_go_ids_ok :
    ∀ (rest : List Instruction) (s : LoaderState) (buf : List Instruction),
      loader_ids_ok s → loader_ids_ok (load_go s buf rest) := by
  intro rest
  induction rest with
  | nil =>
    intro s buf hs
    by_cases h : buf.isEmpty
    · simpa [load_go, h] using hs
    · simpa [load_go, h] using add_block_ids_ok s buf hs
  | cons i rest ih =>
    intro s buf hs
    by_cases hi : i.is_instr
    · by_cases ht : is_terminator_op ((i.get_op_code).getD .Id)
      · simpa [load_go, hi, ht] using
          ih (add_block s (buf ++ [i])) [] (add_block_ids_ok s (buf ++ [i]) hs)
      · simpa [load_go, hi, ht] using ih s (buf ++ [i]) hs
    · by_cases hb : buf.isEmpty
      · simpa [load_go, hi, hb] using ih s [i] hs
      · simpa [load_go, hi, hb] using ih (add_block s buf) [i] (add_block_ids_ok s buf hs)

theorem is_label_false_of_is_instr {i : Instruction} (h : i.is_instr = true) :
    i.is_label = false := by
  cases i <;> simp_all [Instruction.is_instr, Instruction.is_label]

theorem tail_append_singleton (l : List Instruction) (i : Instruction) :
    (l ++ [i]).tail = if l = [] then [] else l.tail ++ [i] := by
  cases l <;> simp

theorem load_go_tails_ok :
    ∀ (rest : List Instruction) (s : LoaderState) (buf : List Instruction),
      tails_ok s.blocks → (∀ i ∈ buf.tail, i.is_label = false) →
      tails_ok (load_go s buf rest).blocks := by
  have hadd : ∀ (s : LoaderState) (buf : List Instruction), tails_ok s.blocks →
      (∀ i ∈ buf.tail, i.is_label = false) → tails_ok (add_block s buf).blocks := by
    intro s buf hs hbuf b hb
    rw [add_block_blocks] at hb
    rcases List.mem_append.mp hb with h | h
    · exact hs b h
    · simp only [List.mem_singleton] at h
      subst h
      exact hbuf
  have hext : ∀ (buf : List Instruction) (i : Instruction), i.is_label = false →
      (∀ j ∈ buf.tail, j.is_label = false) → ∀ j ∈ (buf ++ [i]).tail, j.is_label = false := by
    intro buf i hi hbuf j hj
    rw [tail_append_singleton] at hj
    by_cases hb : buf = []
    · simp [hb] at hj
    · rw [if_neg hb] at hj
      rcases List.mem_append.mp hj with h | h
      · exact hbuf j h
      · simp only [List.mem_singleton] at h
        subst h
        exact hi
  intro rest
  induction rest with
  | nil =>
    intro s buf hs hbuf
    by_cases h : buf.isEmpty
    · simpa [load_go, h] using hs
    · simpa [load_go, h] using hadd s buf hs hbuf
  | cons i rest ih =>
    intro s buf hs hbuf
    by_cases hi : i.is_instr
    · by_cases ht : is_terminator_op ((i.get_op_code).getD .Id)
      · refine fun b hb => ih (add_block s (buf ++ [i])) []
          (hadd s (buf ++ [i]) hs (hext buf i (is_label_false_of_is_instr hi) hbuf)) (by simp) b ?_
        simpa [load_go, hi, ht] using hb
      · refine fun b hb => ih s (buf ++ [i]) hs
          (hext buf i (is_label_false_of_is_instr hi) hbuf) b ?_
        simpa [load_go, hi, ht] using hb
    · by_cases hb : buf.isEmpty
      · refine fun b hmem => ih s [i] hs (by simp) b ?_
        simpa [load_go, hi, hb] using hmem
      · refine fun b hmem => ih (add_block s buf) [i] (hadd s buf hs hbuf) (by simp) b ?_
        simpa [load_go, hi, hb] using hmem

/-- C5: for every function whose block construction succeeds, the produced
blocks partition the instruction list: their concatenation in block order is
exactly the original sequence, every block is non-empty, ids are 0..N−1 in
order, and labels sit only at block starts. -/
theorem c5_load_partitions (f : Func) (fb : FunctionBlocks) (h : load f = .ok fb) :
    blocksJoin fb.blocks = f.instrs ∧
    (∀ b ∈ fb.blocks, b.instrs ≠ []) ∧
    fb.blocks.map (·.id) = List.range fb.blocks.length ∧
    (∀ b ∈ fb.blocks, ∀ i ∈ b.instrs.tail, i.is_label = false) := by
  have hfb : fb.blocks = (run_loader f).blocks := by
    unfold load at h
    by_cases he : (run_loader f).load_errors.isEmpty
    · rw [if_pos he] at h
      cases h
      rfl
    · rw [if_neg he] at h
      cases h
  rw [hfb]
  have hids := load_go_ids_ok f.instrs initLoaderState [] ⟨rfl, rfl⟩
  refine ⟨?_, ?_, ?_, ?_⟩
  · simpa [blocksJoin, run_loader, initLoaderState] using
      load_go_join f.instrs initLoaderState []
  · exact load_go_nonempty f.instrs initLoaderState [] (by simp [initLoaderState])
  · exact hids.2
  · exact load_go_tails_ok f.instrs initLoaderState [] (by simp [initLoaderState, tails_ok])
      (by simp)

/-- C5 witness: the two-block function `a = const 1; .L: b = const 2; jmp .L`
loads successfully and the partition properties hold for its blocks. -/
theorem c5_load_partitions_witness :
    load two_block_func = .ok two_block_fb ∧
    (blocksJoin two_block_fb.blocks = two_block_func.instrs ∧
      (∀ b ∈ two_block_fb.blocks, b.instrs ≠ []) ∧
      two_block_fb.blocks.map (·.id) = List.range two_block_fb.blocks.length ∧
      (∀ b ∈ two_block_fb.blocks, ∀ i ∈ b.instrs.tail, i.is_label = false)) :=
  ⟨by decide, c5_load_partitions two_block_func two_block_fb (by decide)⟩

theorem block_names_append (bs : List BasicBlock) (b : BasicBlock) :
    block_names (bs ++ [b]) = block_names bs ++ [b.name] := by
  simp [block_names]

theorem add_block_dup_count_ok (s : LoaderState) (buf : List Instruction)
    (h : dup_count_ok s) : dup_count_ok (add_block s buf) := by
  obtain ⟨h1, h2⟩ := h
  have hnames : block_names (add_block s buf).blocks =
      block_names s.blocks ++ [block_name_of buf s.cur_id] := by
    rw [add_block_blocks, block_names_append]
  constructor
  · intro x
    have : x ∈ (add_block s buf).already_used_labels ↔
        x = block_name_of buf s.cur_id ∨ x ∈ s.already_used_labels := by
      simp [add_block]
    rw [this, hnames]
    simp [h1 x, List.mem_append, or_comm]
  · rw [hnames]
    have hcard : (block_names s.blocks ++ [block_name_of buf s.cur_id]).toFinset =
        insert (block_name_of buf s.cur_id) (block_names s.blocks).toFinset := by
      simp only [List.toFinset_append, List.toFinset_cons, List.toFinset_nil,
        insert_emptyc_eq]
      exact (Finset.union_comm _ _).trans (Finset.insert_eq _ _).symm
    by_cases hmem : block_name_of buf s.cur_id ∈ s.already_used_labels
    · have herr : (add_block s buf).load_errors.length = s.load_errors.length + 1 := by
        simp [add_block, hmem]
      have hin : block_name_of buf s.cur_id ∈ (block_names s.blocks).toFinset :=
        List.mem_toFinset.mpr ((h1 _).mp hmem)
      rw [herr, hcard, Finset.insert_eq_self.mpr hin]
      simp only [List.length_append, List.length_singleton]
      omega
    · have herr : (add_block s buf).load_errors.length = s.load_errors.length := by
        simp [add_block, hmem]
      have hout : block_name_of buf s.cur_id ∉ (block_names s.blocks).toFinset :=
        fun hc => hmem ((h1 _).mpr (List.mem_toFinset.mp hc))
      rw [herr, hcard, Finset.card_insert_of_not_mem hout]
      simp only [List.length_append, List.length_singleton]
      omega

theorem load_go_dup_count_ok :
    ∀ (rest : List Instruction) (s : LoaderState) (buf : List Instruction),
      dup_count_ok s → dup_count_ok (load_go s buf rest) := by
  intro rest
  induction rest with
  | nil =>
    intro s buf hs
    by_cases h : buf.isEmpty
    · simpa [load_go, h] using hs
    · simpa [load_go, h] using add_block_dup_count_ok s buf hs
  | cons i rest ih =>
    intro s buf hs
    by_cases hi : i.is_instr
    · by_cases ht : is_terminator_op ((i.get_op_code).getD .Id)
      · simpa [load_go, hi, ht] using
          ih (add_block s (buf ++ [i])) [] (add_block_dup_count_ok s (buf ++ [i]) hs)
      · simpa [load_go, hi, ht] using ih s (buf ++ [i]) hs
    · by_cases hb : buf.isEmpty
      · simpa [load_go, hi, hb] using ih s [i] hs
      · simpa [load_go, hi, hb] using
          ih (add_block s buf) [i] (add_block_dup_count_ok s buf hs)

theorem names_nodup_iff_card (l : List String) :
    l.Nodup ↔ l.toFinset.card = l.length :=
  (Multiset.toFinset_card_eq_card_iff_nodup (m := (l : Multiset String))).symm

/-- C6: the loader processes the whole instruction list, returns an error iff
two produced blocks got the same name, the error list holds one diagnostic
per duplicate-name occurrence (its length is the number of block names minus
the number of distinct names), and with no duplicates it returns the
FunctionBlocks. -/
theorem c6_duplicate_label_errors (f : Func) :
    ((run_loader f).load_errors.length +
        (block_names (run_loader f).blocks).toFinset.card =
      (block_names (run_loader f).blocks).length) ∧
    ((block_names (run_loader f).blocks).Nodup →
      load f = .ok ⟨f.name, f.args, (run_loader f).blocks,
        (run_loader f).block_id_to_idx, (run_loader f).block_name_to_id⟩) ∧
    (¬ (block_names (run_loader f).blocks).Nodup →
      load f = .error (run_loader f).load_errors ∧
        (run_loader f).load_errors ≠ [] ∧
        (run_loader f).load_errors.length =
          (block_names (run_loader f).blocks).length -
            (block_names (run_loader f).blocks).toFinset.card) := by
  have hinv : dup_count_ok (run_loader f) :=
    load_go_dup_count_ok f.instrs initLoaderState []
      ⟨by simp [initLoaderState, block_names], by simp [initLoaderState, block_names]⟩
  refine ⟨hinv.2, ?_, ?_⟩
  · intro hnodup
    have heq := hinv.2
    have hcard := (names_nodup_iff_card _).mp hnodup
    have herr : (run_loader f).load_errors.length = 0 := by omega
    have herr' : (run_loader f).load_errors = [] := List.length_eq_zero.mp herr
    unfold load
    rw [if_pos (by simp [herr'])]
  · intro hnodup
    have heq := hinv.2
    have hcard : (block_names (run_loader f).blocks).toFinset.card ≠
        (block_names (run_loader f).blocks).length :=
      fun hc => hnodup ((names_nodup_iff_card _).mpr hc)
    have hle := List.toFinset_card_le (l := block_names (run_loader f).blocks)
    have herr : (run_loader f).load_errors.length ≠ 0 := by omega
    have herr' : ¬ (run_loader f).load_errors.isEmpty := by
      simpa [List.isEmpty_iff] using fun hc => herr (by simp [hc])
    refine ⟨by unfold load; rw [if_neg herr'], ?_, by omega⟩
    exact fun hc => herr (by simp [hc])

/-- C6 witness: the clean two-block function loads to its FunctionBlocks; the
duplicate-label function fails with a non-empty diagnostic list of the
claimed length. -/
theorem c6_duplicate_label_errors_witness :
    load two_block_func = .ok ⟨"f", [], (run_loader two_block_func).blocks,
      (run_loader two_block_func).block_id_to_idx,
      (run_loader two_block_func).block_name_to_id⟩ ∧
    (load dup_label_func = .error (run_loader dup_label_func).load_errors ∧
      (run_loader dup_label_func).load_errors ≠ [] ∧
      (run_loader dup_label_func).load_errors.length =
        (block_names (run_loader dup_label_func).blocks).length -
          (block_names (run_loader dup_label_func).blocks).toFinset.card) :=
  ⟨(c6_duplicate_label_errors two_block_func).2.1 (by decide),
   (c6_duplicate_label_errors dup_label_func).2.2 (by decide)⟩

theorem cfb_fold_empty (fb : FunctionBlocks) (n : ℕ) :
    ∀ (l : List (ℕ × BasicBlock))
      (st : (ℕ → Option (List ℕ)) × (ℕ → Option (List ℕ)) × List ℕ),
      (∃ p ∈ l, p.2.instrs = []) → l.foldlM (cfb_step fb n) st = none := by
  intro l
  induction l with
  | nil => simp
  | cons p l ih =>
    intro st hex
    rw [List.foldlM_cons]
    rcases hex with ⟨q, hq, hq2⟩
    rcases List.mem_cons.mp hq with rfl | hq'
    · have hstep : cfb_step fb n st q = none := by
        obtain ⟨i, b⟩ := q
        obtain ⟨preds, succs, ids⟩ := st
        simp only at hq2
        simp [cfb_step, hq2]
      simp [hstep]
    · cases hstep : cfb_step fb n st p with
      | none => simp [hstep]
      | some st' => exact ih st' ⟨q, hq', hq2⟩

theorem cfb_step_isSome (fb : FunctionBlocks) (n : ℕ)
    (st : (ℕ → Option (List ℕ)) × (ℕ → Option (List ℕ)) × List ℕ)
    (i : ℕ) (b : BasicBlock) (hne : b.instrs ≠ [])
    (hj : ∀ last, b.instrs.getLast? = some last →
      last.is_jump = true → last.is_effect = true) :
    (cfb_step fb n st (i, b)).isSome := by
  obtain ⟨preds, succs, ids⟩ := st
  obtain ⟨last, hlast⟩ := Option.isSome_iff_exists.mp (List.getLast?_isSome.mpr hne)
  by_cases hjump : last.is_jump = true
  · have heff := hj last hlast hjump
    cases last with
    | Effect e => simp [cfb_step, hlast, hjump, Instruction.get_jump_target]
    | _ => simp [Instruction.is_effect] at heff
  · by_cases hret : last.is_ret = true
    · simp [cfb_step, hlast, hjump, hret]
    · by_cases hlt : i < n - 1
      · simp [cfb_step, hlast, hjump, hret, hlt]
      · simp [cfb_step, hlast, hjump, hret, hlt]

theorem cfb_fold_isSome (fb : FunctionBlocks) (n : ℕ) :
    ∀ (l : List (ℕ × BasicBlock))
      (st : (ℕ → Option (List ℕ)) × (ℕ → Option (List ℕ)) × List ℕ),
      (∀ p ∈ l, p.2.instrs ≠ [] ∧ ∀ last, p.2.instrs.getLast? = some last →
        last.is_jump = true → last.is_effect = true) →
      (l.foldlM (cfb_step fb n) st).isSome := by
  intro l
  induction l with
  | nil => intro st _; simp
  | cons p l ih =>
    intro st h
    obtain ⟨i, b⟩ := p
    obtain ⟨hne, hj⟩ := h (i, b) (List.mem_cons_self _ _)
    obtain ⟨st', hst'⟩ :=
      Option.isSome_iff_exists.mp (cfb_step_isSome fb n st i b hne hj)
    rw [List.foldlM_cons, hst']
    exact ih st' (fun q hq => h q (List.mem_cons_of_mem _ hq))

theorem mem_blocks_of_mem_enum {fb : FunctionBlocks} {p : ℕ × BasicBlock}
    (hp : p ∈ fb.blocks.enum) : p.2 ∈ fb.blocks := by
  have : p.2 ∈ fb.blocks.enum.map Prod.snd := List.mem_map_of_mem Prod.snd hp
  rwa [List.enum_eq_enumFrom, List.enumFrom_map_snd] at this

/-- C10: `create_from_basic_blocks` indexes each block's last instruction via
`instrs.len() - 1`, so an empty block makes construction panic (`none`);
conversely, on the output of a successful `FunctionBlocksLoader::load` (whose
blocks are all non-empty, with jump-opcode instructions being Effects, as the
parser guarantees) construction succeeds. -/
theorem c10_create_cfg_needs_nonempty_blocks :
    (∀ fb : FunctionBlocks, (∃ b ∈ fb.blocks, b.instrs = []) →
      create_from_basic_blocks fb = none) ∧
    (∀ (f : Func) (fb : FunctionBlocks), load f = .ok fb →
      (∀ i ∈ f.instrs, i.is_jump = true → i.is_effect = true) →
      (create_from_basic_blocks fb).isSome) := by
  constructor
  · intro fb hex
    have hex' : ∃ p ∈ fb.blocks.enum, p.2.instrs = [] := by
      obtain ⟨b, hb, hbe⟩ := hex
      have hb' : b ∈ fb.blocks.enum.map Prod.snd := by
        rw [List.enum_eq_enumFrom, List.enumFrom_map_snd]; exact hb
      obtain ⟨p, hp, hpe⟩ := List.mem_map.mp hb'
      exact ⟨p, hp, by rw [hpe]; exact hbe⟩
    unfold create_from_basic_blocks
    rw [cfb_fold_empty fb fb.blocks.length _ _ hex']
    rfl
  · intro f fb hload hwf
    obtain ⟨hjoin, hne, _, _⟩ := c5_load_partitions f fb hload
    have hfold := cfb_fold_isSome fb fb.blocks.length fb.blocks.enum
      (fun _ => none, fun _ => none, [])
      (by
        intro p hp
        have hpb : p.2 ∈ fb.blocks := mem_blocks_of_mem_enum hp
        refine ⟨hne p.2 hpb, ?_⟩
        intro last hlast hjump
        have hlmem : last ∈ p.2.instrs := List.mem_of_getLast?_eq_some hlast
        have : last ∈ f.instrs := by
          rw [← hjoin]
          exact List.mem_flatten.mpr ⟨p.2.instrs, List.mem_map_of_mem _ hpb, hlmem⟩
        exact hwf last this hjump)
    obtain ⟨st, hst⟩ := Option.isSome_iff_exists.mp hfold
    unfold create_from_basic_blocks
    rw [hst]
    rfl

/-- C10 witness: the single-empty-block input panics; the loaded two-block
function constructs a CFG. -/
theorem c10_create_cfg_needs_nonempty_blocks_witness :
    create_from_basic_blocks fb_empty_block = none ∧
    (create_from_basic_blocks two_block_fb).isSome :=
  ⟨c10_create_cfg_needs_nonempty_blocks.1 fb_empty_block (by decide),
   c10_create_cfg_needs_nonempty_blocks.2 two_block_func two_block_fb (by decide) (by decide)⟩

theorem idom_bfs_nil (C : Cfg) (D : Finset ℕ) (fuel : ℕ) (closed : Finset ℕ) :
    idom_bfs C D fuel [] closed = 0 := by
  cases fuel <;> rfl

/-- C9: when the backward BFS of `find_immediate_dominator` starts with an
empty worklist (a block with no predecessor entry — e.g. a block unreachable
from the entry), it returns 0; hence `find_immediate_dominators` maps every
such non-entry block to the entry block, and `create_dominator_tree` makes it
a child of the entry. -/
theorem c9_bfs_exhaustion_gives_entry (C : Cfg) (dominators : ℕ → Finset ℕ)
    (D : Finset ℕ) (b : ℕ) (hmem : b ∈ C.all_block_ids) (hb0 : b ≠ 0)
    (hp : C.predecessors b = none) :
    find_immediate_dominator C b D = 0 ∧
    find_immediate_dominators C dominators b = some 0 ∧
    b ∈ create_dominator_tree C dominators 0 := by
  have h1 : ∀ E, find_immediate_dominator C b E = 0 := by
    intro E
    unfold find_immediate_dominator
    rw [hp]
    exact idom_bfs_nil C E (bfs_fuel C) {b}
  have h2 : find_immediate_dominators C dominators b = some 0 := by
    unfold find_immediate_dominators
    rw [if_pos ⟨hmem, hb0⟩, h1]
  have h2' : find_immediate_dominators C (retain_only_strict_dominators dominators) b =
      some 0 := by
    unfold find_immediate_dominators
    rw [if_pos ⟨hmem, hb0⟩, h1]
  refine ⟨h1 D, h2, ?_⟩
  unfold create_dominator_tree
  refine List.mem_toFinset.mpr (List.mem_filter.mpr ⟨hmem, ?_⟩)
  exact decide_eq_true h2'

/-- C9 witness: in the CFG with a `ret` entry and an unreachable block 1 with
no predecessors, block 1 gets the entry as immediate dominator and becomes a
child of the entry in the dominator tree. -/
theorem c9_bfs_exhaustion_gives_entry_witness :
    find_immediate_dominator cfg_unreachable 1 ∅ = 0 ∧
    find_immediate_dominators cfg_unreachable (find_dominators cfg_unreachable) 1 = some 0 ∧
    1 ∈ create_dominator_tree cfg_unreachable (find_dominators cfg_unreachable) 0 :=
  c9_bfs_exhaustion_gives_entry cfg_unreachable (find_dominators cfg_unreachable) ∅ 1
    (by decide) (by decide) rfl

theorem length_filterMap_of_isSome {α β : Type} (f : α → Option β) :
    ∀ l : List α, (∀ o ∈ l, (f o).isSome) → (l.filterMap f).length = l.length := by
  intro l
  induction l with
  | nil => simp
  | cons a l ih =>
    intro h
    obtain ⟨b, hb⟩ := Option.isSome_iff_exists.mp (h a (List.mem_cons_self _ _))
    simp [List.filterMap_cons, hb, ih (fun o ho => h o (List.mem_cons_of_mem _ ho))]

theorem lvn_canonicalize_value (s : LVNState) (v : ValueInstruction) (ords : List ℕ)
    (hords : arg_ordinals s.env v.args = some ords) :
    canonicalize_instruction s (.Value v) = some ⟨opcode_display v.op, ords⟩ := by
  simp [canonicalize_instruction, Instruction.is_const, Instruction.is_value,
    canonicalize_value_instr, Instruction.get_args, Instruction.get_op_code, hords]

/-- C7: in local value numbering, a value instruction whose canonical
expression (op tag plus operand value numbers) is already in the table is
rewritten to `id` of the table entry's canonical name, while a new canonical
expression keeps its opcode with its operand names replaced by the canonical
names of their value numbers; on the seed block
`a=const 4; b=const 2; s1=add a b; s2=add a b; p=mul s1 s2` the pass rewrites
`s2` to `id s1` and both arguments of `p` to `s1`. -/
theorem c7_lvn_canonical_rewrites :
    (∀ (s : LVNState) (v : ValueInstruction) (ords : List ℕ),
      arg_ordinals s.env v.args = some ords →
      (∀ o nm, alookup s.table ⟨opcode_display v.op, ords⟩ = some o →
        alookup s.names o = some nm →
        (lvn_step s (.Value v)).2 = new_value .Id v.dest v.instr_type [nm] [] []) ∧
      (alookup s.table ⟨opcode_display v.op, ords⟩ = none →
        (∀ o ∈ ords, (alookup ((s.table.length, v.dest) :: s.names) o).isSome) →
        (lvn_step s (.Value v)).2 = new_value v.op v.dest v.instr_type
          (ords.filterMap (alookup ((s.table.length, v.dest) :: s.names)))
          v.funcs v.labels)) ∧
    LocalValueNumbering.run lvn_seed_block = ⟨0, "block_0",
      [.Const ⟨.Const, "a", .Int, .IntV 4⟩,
       .Const ⟨.Const, "b", .Int, .IntV 2⟩,
       .Value ⟨.Add, "s1", .Int, ["a", "b"], [], []⟩,
       .Value ⟨.Id, "s2", .Int, ["s1"], [], []⟩,
       .Value ⟨.Mul, "p", .Int, ["s1", "s1"], [], []⟩]⟩ := by
  constructor
  · intro s v ords hords
    have hc := lvn_canonicalize_value s v ords hords
    constructor
    · intro o nm ho hnm
      simp [lvn_step, hc, register_canonicalized_instr, ho, reconstruct_instruction,
        Instruction.is_value, hnm, Instruction.get_dest, Instruction.get_type, new_value]
    · intro hnone hns
      have hlen := length_filterMap_of_isSome
        (alookup ((s.table.length, v.dest) :: s.names)) ords hns
      simp [lvn_step, hc, register_canonicalized_instr, hnone, reconstruct_instruction,
        Instruction.is_value, Instruction.get_dest, Instruction.get_type,
        Instruction.get_op_code, Instruction.get_funcs_copy, Instruction.get_labels_copy,
        new_value, hlen]
  · decide

/-- C7 witness: with `a` bound to value number 0, a table already containing
`(add, [0,0]) ↦ 1` (canonical name `t`) rewrites `d = add a a` to `id t`,
while a table without that expression keeps the `add` with canonicalized
argument names. -/
theorem c7_lvn_canonical_rewrites_witness :
    (lvn_step ⟨[("a", 0)], [(⟨"const_4", []⟩, 0), (⟨"add", [0, 0]⟩, 1)],
        [(0, "a"), (1, "t")]⟩
      (.Value ⟨.Add, "d", .Int, ["a", "a"], [], []⟩)).2 =
        new_value .Id "d" .Int ["t"] [] [] ∧
    (lvn_step ⟨[("a", 0)], [(⟨"const_4", []⟩, 0)], [(0, "a")]⟩
      (.Value ⟨.Add, "d", .Int, ["a", "a"], [], []⟩)).2 =
        new_value .Add "d" .Int ["a", "a"] [] [] :=
  ⟨(c7_lvn_canonical_rewrites.1 _ ⟨.Add, "d", .Int, ["a", "a"], [], []⟩ [0, 0]
      (by decide)).1 1 "t" (by decide) (by decide),
   by
    have h := (c7_lvn_canonical_rewrites.1
      ⟨[("a", 0)], [(⟨"const_4", []⟩, 0)], [(0, "a")]⟩
      ⟨.Add, "d", .Int, ["a", "a"], [], []⟩ [0, 0] (by decide)).2 (by decide) (by decide)
    simpa using h⟩

theorem mem_function_instrs (f : FunctionBlocks) (i : Instruction) :
    i ∈ function_instrs f ↔ ∃ b ∈ f.blocks, i ∈ b.instrs := by
  simp only [function_instrs, List.mem_flatten, List.mem_map]
  constructor
  · rintro ⟨l, ⟨b, hb, rfl⟩, hi⟩
    exact ⟨b, hb, hi⟩
  · rintro ⟨b, hb, hi⟩
    exact ⟨b.instrs, ⟨b, hb, rfl⟩, hi⟩

theorem mem_used_args (f : FunctionBlocks) (x : String) :
    x ∈ used_args f ↔ ∃ i ∈ function_instrs f, x ∈ i.get_args_copy := by
  simp [used_args, List.mem_flatMap]

theorem mem_dest_set (f : FunctionBlocks) (d : String) :
    d ∈ dest_set f ↔ ∃ i ∈ function_instrs f, i.get_dest = some d := by
  simp [dest_set, List.mem_filterMap]

theorem delete_unused_vars_flag_false (f : FunctionBlocks)
    (h : (delete_unused_vars f).2 = false) :
    (delete_unused_vars f).1 = f ∧ dest_set f ⊆ used_args f := by
  have hcard : (dest_set f \ used_args f).card = 0 := by
    by_contra hc
    have : 0 < (dest_set f \ used_args f).card := Nat.pos_of_ne_zero hc
    simp [delete_unused_vars, this] at h
  have hempty : dest_set f \ used_args f = ∅ := Finset.card_eq_zero.mp hcard
  refine ⟨?_, Finset.sdiff_eq_empty_iff_subset.mp hempty⟩
  have hfilter : ∀ b : BasicBlock,
      b.instrs.filter (fun i =>
        match i.get_dest with
        | none => true
        | some d => !(decide (d ∈ dest_set f \ used_args f))) = b.instrs := by
    intro b
    rw [List.filter_eq_self]
    intro i _
    cases hd : i.get_dest with
    | none => simp
    | some d => simp [hempty]
  have hmap : f.blocks.map (fun b =>
      { b with instrs := b.instrs.filter (fun i =>
          match i.get_dest with
          | none => true
          | some d => !(decide (d ∈ dest_set f \ used_args f))) }) = f.blocks := by
    have := List.map_congr_left (l := f.blocks)
      (f := fun b : BasicBlock =>
        { b with instrs := b.instrs.filter (fun i =>
            match i.get_dest with
            | none => true
            | some d => !(decide (d ∈ dest_set f \ used_args f))) })
      (g := fun b : BasicBlock => b)
      (fun b _ => by
        show ({ b with instrs := b.instrs.filter _ } : BasicBlock) = b
        rw [hfilter b])
    rw [this]
    simp
  show ({ f with blocks := f.blocks.map _ } : FunctionBlocks) = f
  rw [hmap]

theorem length_filter_lt {p : Instruction → Bool} :
    ∀ (l : List Instruction), (∃ i ∈ l, p i = false) →
      (l.filter p).length < l.length := by
  intro l
  induction l with
  | nil => simp
  | cons a l ih =>
    rintro ⟨i, hi, hpi⟩
    rcases List.mem_cons.mp hi with rfl | hi'
    · have hle := List.length_filter_le p l
      simp only [List.filter_cons, hpi]
      simpa using Nat.lt_succ_of_le hle
    · cases hpa : p a <;> simp only [List.filter_cons, hpa]
      · exact Nat.lt_succ_of_lt (ih ⟨i, hi', hpi⟩)
      · simpa using Nat.succ_lt_succ (ih ⟨i, hi', hpi⟩)

theorem sum_map_filter_le (p : Instruction → Bool) :
    ∀ (bs : List BasicBlock),
      (bs.map (fun b => (b.instrs.filter p).length)).sum ≤
        (bs.map (fun b => b.instrs.length)).sum := by
  intro bs
  induction bs with
  | nil => simp
  | cons b bs ih =>
    simp only [List.map_cons, List.sum_cons]
    exact Nat.add_le_add (List.length_filter_le p b.instrs) ih

theorem sum_map_filter_lt {p : Instruction → Bool} :
    ∀ (bs : List BasicBlock), (∃ b ∈ bs, ∃ i ∈ b.instrs, p i = false) →
      (bs.map (fun b => (b.instrs.filter p).length)).sum <
        (bs.map (fun b => b.instrs.length)).sum := by
  intro bs
  induction bs with
  | nil => simp
  | cons b bs ih =>
    rintro ⟨b', hb', hex⟩
    simp only [List.map_cons, List.sum_cons]
    rcases List.mem_cons.mp hb' with rfl | hb''
    · exact Nat.add_lt_add_of_lt_of_le (length_filter_lt _ hex) (sum_map_filter_le p bs)
    · exact Nat.add_lt_add_of_le_of_lt (List.length_filter_le p b.instrs)
        (ih ⟨b', hb'', hex⟩)

theorem dce_size_delete_lt (f : FunctionBlocks)
    (h : (delete_unused_vars f).2 = true) :
    dce_size (delete_unused_vars f).1 < dce_size f := by
  have hpos : 0 < (dest_set f \ used_args f).card := by
    by_contra hc
    simp [delete_unused_vars, Nat.le_zero.mp (Nat.not_lt.mp hc)] at h
  obtain ⟨d, hd⟩ := Finset.card_pos.mp hpos
  have hdd : d ∈ dest_set f := (Finset.mem_sdiff.mp hd).1
  obtain ⟨i, hi, hdest⟩ := (mem_dest_set f d).mp hdd
  obtain ⟨b, hb, hib⟩ := (mem_function_instrs f i).mp hi
  have hfail : (fun i : Instruction =>
      match i.get_dest with
      | none => true
      | some d' => !(decide (d' ∈ dest_set f \ used_args f))) i = false := by
    simp [hdest, hd]
  have hlt := sum_map_filter_lt (p := fun i : Instruction =>
      match i.get_dest with
      | none => true
      | some d' => !(decide (d' ∈ dest_set f \ used_args f)))
    f.blocks ⟨b, hb, i, hib, hfail⟩
  have hsz : dce_size (delete_unused_vars f).1 =
      (f.blocks.map (fun b => (b.instrs.filter (fun i =>
        match i.get_dest with
        | none => true
        | some d' => !(decide (d' ∈ dest_set f \ used_args f)))).length)).sum := by
    have h0 : dce_size (delete_unused_vars f).1 =
        ((f.blocks.map (fun b => ({ b with instrs := b.instrs.filter (fun i =>
            match i.get_dest with
            | none => true
            | some d' => !(decide (d' ∈ dest_set f \ used_args f))) } : BasicBlock))).map
          (fun b => b.instrs.length)).sum := rfl
    rw [h0, List.map_map]
    rfl
  rw [hsz]
  exact hlt

theorem dce_loop_flag_false :
    ∀ (fuel : ℕ) (f : FunctionBlocks), dce_size f < fuel →
      (delete_unused_vars (dce_loop fuel f)).2 = false := by
  intro fuel
  induction fuel with
  | zero => intro f h; omega
  | succ fuel ih =>
    intro f h
    cases hr : (delete_unused_vars f).2 with
    | false =>
      have : dce_loop (fuel + 1) f = (delete_unused_vars f).1 := by
        simp [dce_loop, hr]
      rw [this, (delete_unused_vars_flag_false f hr).1]
      exact hr
    | true =>
      have : dce_loop (fuel + 1) f = dce_loop fuel (delete_unused_vars f).1 := by
        simp [dce_loop, hr]
      rw [this]
      exact ih _ (Nat.lt_of_lt_of_le (dce_size_delete_lt f hr) (Nat.lt_succ_iff.mp h))

theorem delete_nodest_proj (f : FunctionBlocks) :
    nodest_proj (delete_unused_vars f).1 = nodest_proj f := by
  show ((f.blocks.map _).map _ : List (ℕ × String × List Instruction)) = _
  rw [List.map_map]
  refine List.map_congr_left ?_
  intro b _
  refine congrArg (fun l => (b.id, b.name, l)) ?_
  rw [List.filter_filter]
  refine List.filter_congr ?_
  intro i _
  cases hd : i.get_dest with
  | none => simp [hd]
  | some d => simp [hd]

theorem dce_loop_nodest :
    ∀ (fuel : ℕ) (f : FunctionBlocks), nodest_proj (dce_loop fuel f) = nodest_proj f := by
  intro fuel
  induction fuel with
  | zero => intro f; rfl
  | succ fuel ih =>
    intro f
    cases hr : (delete_unused_vars f).2 with
    | false =>
      have : dce_loop (fuel + 1) f = (delete_unused_vars f).1 := by
        simp [dce_loop, hr]
      rw [this, delete_nodest_proj]
    | true =>
      have : dce_loop (fuel + 1) f = dce_loop fuel (delete_unused_vars f).1 := by
        simp [dce_loop, hr]
      rw [this, ih, delete_nodest_proj]

/-- C8: after `DeadCodeElimination::run`, the result is a fixpoint: every
remaining instruction with a destination has that destination used as an
argument of some remaining instruction, and the instructions without a
destination (effects, labels) of every block are retained unchanged. -/
theorem c8_dce_fixpoint (f : FunctionBlocks) :
    (∀ b ∈ (DeadCodeElimination.run f).blocks, ∀ i ∈ b.instrs, ∀ d,
      i.get_dest = some d →
      ∃ b' ∈ (DeadCodeElimination.run f).blocks, ∃ i' ∈ b'.instrs,
        d ∈ i'.get_args_copy) ∧
    nodest_proj (DeadCodeElimination.run f) = nodest_proj f := by
  have hflag : (delete_unused_vars (DeadCodeElimination.run f)).2 = false :=
    dce_loop_flag_false (dce_size f + 1) f (Nat.lt_succ_self _)
  have hsub := (delete_unused_vars_flag_false _ hflag).2
  constructor
  · intro b hb i hi d hd
    have hdm : d ∈ dest_set (DeadCodeElimination.run f) :=
      (mem_dest_set _ d).mpr ⟨i, (mem_function_instrs _ i).mpr ⟨b, hb, hi⟩, hd⟩
    obtain ⟨i', hi', hargs⟩ := (mem_used_args _ d).mp (hsub hdm)
    obtain ⟨b', hb', hib⟩ := (mem_function_instrs _ i').mp hi'
    exact ⟨b', hb', i', hib, hargs⟩
  · exact dce_loop_nodest _ f

/-- C8 witness: on the seed `a=4; b=2; c=1; d=a+b; e=c+d; print d`, DCE
removes `c` and `e` (iterated: removing `e` removes the only use of `c`), and
the destination `a` of the kept `const` is used by the kept `add`. -/
theorem c8_dce_fixpoint_witness :
    (DeadCodeElimination.run dce_seed).blocks =
      [⟨0, "block_0",
        [.Const ⟨.Const, "a", .Int, .IntV 4⟩,
         .Const ⟨.Const, "b", .Int, .IntV 2⟩,
         .Value ⟨.Add, "d", .Int, ["a", "b"], [], []⟩,
         .Effect ⟨.Print, ["d"], [], []⟩]⟩] ∧
    (∃ b' ∈ (DeadCodeElimination.run dce_seed).blocks, ∃ i' ∈ b'.instrs,
      "a" ∈ i'.get_args_copy) :=
  ⟨by decide,
   (c8_dce_fixpoint dce_seed).1
     ⟨0, "block_0",
      [.Const ⟨.Const, "a", .Int, .IntV 4⟩,
       .Const ⟨.Const, "b", .Int, .IntV 2⟩,
       .Value ⟨.Add, "d", .Int, ["a", "b"], [], []⟩,
       .Effect ⟨.Print, ["d"], [], []⟩]⟩
     (by decide) (.Const ⟨.Const, "a", .Int, .IntV 4⟩) (by decide) "a" (by decide)⟩

theorem dom_pass_from_cons (C : Cfg) (d : ℕ → Finset ℕ) (b : ℕ) (L : List ℕ) :
    dom_pass_from C d (b :: L) = dom_pass_from C (dom_step C d b) L :=
  rfl

theorem dom_pass_fst (C : Cfg) :
    ∀ (L : List ℕ) (d : ℕ → Finset ℕ) (c : Bool),
      (L.foldl (dom_pass_block C) (d, c)).1 = dom_pass_from C d L := by
  intro L
  induction L with
  | nil => intro d c; rfl
  | cons b L ih =>
    intro d c
    rw [List.foldl_cons, dom_pass_from_cons]
    cases hb : C.predecessors b with
    | none =>
      have h1 : dom_pass_block C (d, c) b = (d, c) := by
        simp [dom_pass_block, hb]
      have h2 : dom_step C d b = d := by
        simp [dom_step, hb]
      rw [h1, h2]
      exact ih d c
    | some ps =>
      have h1 : dom_pass_block C (d, c) b =
          (Function.update d b (insert b (inter_ests (ps.map (dom_getD C d)))),
            c || decide (d b ≠ insert b (inter_ests (ps.map (dom_getD C d))))) := by
        simp [dom_pass_block, hb]
      have h2 : dom_step C d b =
          Function.update d b (insert b (inter_ests (ps.map (dom_getD C d)))) := by
        simp [dom_step, hb]
      rw [h1, h2]
      exact ih _ _

theorem dom_pass_state (C : Cfg) (d : ℕ → Finset ℕ) :
    (dom_pass C d).1 = dom_pass_from C d C.all_block_ids := by
  unfold dom_pass
  exact dom_pass_fst C _ d false

theorem dom_flag_mono (C : Cfg) :
    ∀ (L : List ℕ) (d : ℕ → Finset ℕ),
      (L.foldl (dom_pass_block C) (d, true)).2 = true := by
  intro L
  induction L with
  | nil => intro d; rfl
  | cons b L ih =>
    intro d
    rw [List.foldl_cons]
    cases hb : C.predecessors b with
    | none =>
      have : dom_pass_block C (d, true) b = (d, true) := by simp [dom_pass_block, hb]
      rw [this]; exact ih d
    | some ps =>
      have : dom_pass_block C (d, true) b =
          (Function.update d b (insert b (inter_ests (ps.map (dom_getD C d)))), true) := by
        simp [dom_pass_block, hb]
      rw [this]; exact ih _

theorem dom_fold_flag_false (C : Cfg) :
    ∀ (L : List ℕ) (d : ℕ → Finset ℕ),
      (L.foldl (dom_pass_block C) (d, false)).2 = false →
      dom_pass_from C d L = d ∧
        ∀ b ∈ L, ∀ ps, C.predecessors b = some ps →
          d b = insert b (inter_ests (ps.map (dom_getD C d))) := by
  intro L
  induction L with
  | nil => intro d _; exact ⟨rfl, by simp⟩
  | cons b L ih =>
    intro d h
    rw [List.foldl_cons] at h
    cases hb : C.predecessors b with
    | none =>
      have hstep : dom_pass_block C (d, false) b = (d, false) := by
        simp [dom_pass_block, hb]
      rw [hstep] at h
      obtain ⟨h1, h2⟩ := ih d h
      refine ⟨?_, ?_⟩
      · rw [dom_pass_from_cons]
        have : dom_step C d b = d := by simp [dom_step, hb]
        rw [this]; exact h1
      · intro c hc ps hps
        rcases List.mem_cons.mp hc with rfl | hc'
        · rw [hb] at hps; cases hps
        · exact h2 c hc' ps hps
    | some ps =>
      have hstep : dom_pass_block C (d, false) b =
          (Function.update d b (insert b (inter_ests (ps.map (dom_getD C d)))),
            decide (d b ≠ insert b (inter_ests (ps.map (dom_getD C d))))) := by
        simp [dom_pass_block, hb]
      rw [hstep] at h
      by_cases hne : d b = insert b (inter_ests (ps.map (dom_getD C d)))
      · have hupd : Function.update d b (insert b (inter_ests (ps.map (dom_getD C d)))) = d := by
          rw [← hne]; exact Function.update_eq_self b d
        rw [hupd] at h
        have hflag : decide (d b ≠ insert b (inter_ests (ps.map (dom_getD C d)))) = false := by
          simp [hne]
        rw [hflag] at h
        obtain ⟨h1, h2⟩ := ih d h
        refine ⟨?_, ?_⟩
        · rw [dom_pass_from_cons]
          have : dom_step C d b = d := by
            simp only [dom_step, hb]
            exact hupd
          rw [this]; exact h1
        · intro c hc ps' hps'
          rcases List.mem_cons.mp hc with rfl | hc'
          · rw [hb] at hps'
            cases hps'
            exact hne
          · exact h2 c hc' ps' hps'
      · exfalso
        have hflag : decide (d b ≠ insert b (inter_ests (ps.map (dom_getD C d)))) = true := by
          simp [hne]
        rw [hflag] at h
        rw [dom_flag_mono C L _] at h
        cases h

theorem dom_pass_from_untouched (C : Cfg) :
    ∀ (L : List ℕ) (d : ℕ → Finset ℕ) (b : ℕ), b ∉ L →
      dom_pass_from C d L b = d b := by
  intro L
  induction L with
  | nil => intro d b _; rfl
  | cons c L ih =>
    intro d b hb
    rw [dom_pass_from_cons]
    have hbc : b ≠ c := fun h => hb (h ▸ List.mem_cons_self c L)
    have hbL : b ∉ L := fun h => hb (List.mem_cons_of_mem c h)
    rw [ih _ b hbL]
    cases hc : C.predecessors c with
    | none => simp [dom_step, hc]
    | some ps => simp [dom_step, hc, Function.update_noteq hbc]

theorem dom_fold_flag_true (C : Cfg) :
    ∀ (L : List ℕ) (d : ℕ → Finset ℕ), L.Nodup →
      (L.foldl (dom_pass_block C) (d, false)).2 = true →
      ∃ b ∈ L, dom_pass_from C d L b ≠ d b := by
  intro L
  induction L with
  | nil => intro d _ h; cases h
  | cons b L ih =>
    intro d hnd h
    have hbL : b ∉ L := (List.nodup_cons.mp hnd).1
    have hndL : L.Nodup := (List.nodup_cons.mp hnd).2
    rw [List.foldl_cons] at h
    cases hb : C.predecessors b with
    | none =>
      have hstep : dom_pass_block C (d, false) b = (d, false) := by
        simp [dom_pass_block, hb]
      rw [hstep] at h
      obtain ⟨c, hc, hne⟩ := ih d hndL h
      refine ⟨c, List.mem_cons_of_mem b hc, ?_⟩
      rw [dom_pass_from_cons]
      have : dom_step C d b = d := by simp [dom_step, hb]
      rw [this]
      exact hne
    | some ps =>
      have hstep : dom_pass_block C (d, false) b =
          (Function.update d b (insert b (inter_ests (ps.map (dom_getD C d)))),
            decide (d b ≠ insert b (inter_ests (ps.map (dom_getD C d))))) := by
        simp [dom_pass_block, hb]
      rw [hstep] at h
      by_cases hne : d b = insert b (inter_ests (ps.map (dom_getD C d)))
      · have hupd : Function.update d b (insert b (inter_ests (ps.map (dom_getD C d)))) = d := by
          rw [← hne]; exact Function.update_eq_self b d
        have hflag : decide (d b ≠ insert b (inter_ests (ps.map (dom_getD C d)))) = false := by
          simp [hne]
        rw [hupd, hflag] at h
        obtain ⟨c, hc, hcne⟩ := ih d hndL h
        refine ⟨c, List.mem_cons_of_mem b hc, ?_⟩
        rw [dom_pass_from_cons]
        have : dom_step C d b = d := by
          simp only [dom_step, hb]
          exact hupd
        rw [this]
        exact hcne
      · refine ⟨b, List.mem_cons_self b L, ?_⟩
        rw [dom_pass_from_cons]
        have hstep2 : dom_step C d b =
            Function.update d b (insert b (inter_ests (ps.map (dom_getD C d)))) := by
          simp [dom_step, hb]
        rw [hstep2, dom_pass_from_untouched C L _ b hbL, Function.update_same]
        exact fun hc => hne hc.symm

theorem foldl_inter_subset_init :
    ∀ (l : List (Finset ℕ)) (a : Finset ℕ), l.foldl (· ∩ ·) a ⊆ a := by
  intro l
  induction l with
  | nil => intro a; exact Finset.Subset.refl a
  | cons x l ih =>
    intro a
    rw [List.foldl_cons]
    exact (ih (a ∩ x)).trans (Finset.inter_subset_left)

theorem foldl_inter_subset_mem :
    ∀ (l : List (Finset ℕ)) (a x : Finset ℕ), x ∈ l → l.foldl (· ∩ ·) a ⊆ x := by
  intro l
  induction l with
  | nil => intro a x hx; cases hx
  | cons y l ih =>
    intro a x hx
    rw [List.foldl_cons]
    rcases List.mem_cons.mp hx with rfl | hx'
    · exact (foldl_inter_subset_init l (a ∩ x)).trans Finset.inter_subset_right
    · exact ih (a ∩ y) x hx'

theorem inter_ests_subset_mem (f : ℕ → Finset ℕ) :
    ∀ (ps : List ℕ) (p : ℕ), p ∈ ps → inter_ests (ps.map f) ⊆ f p := by
  intro ps p hp
  cases ps with
  | nil => cases hp
  | cons q ps =>
    rcases List.mem_cons.mp hp with rfl | hp'
    · exact foldl_inter_subset_init _ _
    · exact foldl_inter_subset_mem _ _ _ (List.mem_map_of_mem f hp')

theorem foldl_inter_mono :
    ∀ (l l' : List (Finset ℕ)) (a b : Finset ℕ), a ⊆ b →
      List.Forall₂ (· ⊆ ·) l l' → l.foldl (· ∩ ·) a ⊆ l'.foldl (· ∩ ·) b := by
  intro l
  induction l with
  | nil =>
    intro l' a b hab hl
    cases hl
    exact hab
  | cons x l ih =>
    intro l' a b hab hl
    cases hl with
    | cons hxy hl' =>
      rw [List.foldl_cons, List.foldl_cons]
      exact ih _ _ _ (Finset.inter_subset_inter hab hxy) hl'

theorem inter_ests_mono (ps : List ℕ) (f g : ℕ → Finset ℕ)
    (h : ∀ p ∈ ps, f p ⊆ g p) :
    inter_ests (ps.map f) ⊆ inter_ests (ps.map g) := by
  cases ps with
  | nil => exact Finset.Subset.refl _
  | cons q ps =>
    simp only [List.map_cons, inter_ests]
    refine foldl_inter_mono _ _ _ _ (h q (List.mem_cons_self q ps)) ?_
    rw [List.forall₂_map_right_iff, List.forall₂_map_left_iff]
    exact List.forall₂_same.mpr (fun p hp => h p (List.mem_cons_of_mem q hp))

theorem dom_getD_le_of_dom_le {C : Cfg} {d e : ℕ → Finset ℕ} (h : dom_le C d e) :
    ∀ p, dom_getD C d p ⊆ dom_getD C e p := h

theorem dom_bounded_init (C : Cfg) : dom_bounded C (dom_init C) := by
  intro c
  unfold dom_getD dom_init
  by_cases hc : c ∈ C.all_block_ids
  · rw [if_pos hc]
    by_cases h0 : c = 0
    · subst h0
      rw [if_pos rfl]
      exact Finset.singleton_subset_iff.mpr (List.mem_toFinset.mpr hc)
    · rw [if_neg h0]
  · rw [if_neg hc]
    exact Finset.empty_subset _

theorem inter_ests_bounded (C : Cfg) {d : ℕ → Finset ℕ} (hb : dom_bounded C d)
    (ps : List ℕ) : inter_ests (ps.map (dom_getD C d)) ⊆ C.all_block_ids.toFinset := by
  cases ps with
  | nil => exact Finset.empty_subset _
  | cons q ps =>
    exact (inter_ests_subset_mem (dom_getD C d) (q :: ps) q
      (List.mem_cons_self q ps)).trans (hb q)

theorem dom_bounded_step (C : Cfg) {d : ℕ → Finset ℕ} (hb : dom_bounded C d)
    (b : ℕ) : dom_bounded C (dom_step C d b) := by
  intro c
  cases hps : C.predecessors b with
  | none => simpa [dom_step, hps] using hb c
  | some ps =>
    unfold dom_getD
    by_cases hc : c ∈ C.all_block_ids
    · rw [if_pos hc]
      simp only [dom_step, hps]
      by_cases hcb : c = b
      · subst hcb
        rw [Function.update_same]
        intro x hx
        rcases Finset.mem_insert.mp hx with rfl | hx'
        · exact List.mem_toFinset.mpr hc
        · exact inter_ests_bounded C hb ps hx'
      · rw [Function.update_noteq hcb]
        have := hb c
        rwa [dom_getD, if_pos hc] at this
    · rw [if_neg hc]
      exact Finset.empty_subset _

theorem dom_bounded_pass_from (C : Cfg) :
    ∀ (L : List ℕ) {d : ℕ → Finset ℕ}, dom_bounded C d →
      dom_bounded C (dom_pass_from C d L) := by
  intro L
  induction L with
  | nil => intro d hd; exact hd
  | cons b L ih =>
    intro d hd
    rw [dom_pass_from_cons]
    exact ih (dom_bounded_step C hd b)

theorem dom_step_self_post_fix (C : Cfg) (d : ℕ → Finset ℕ) (b : ℕ)
    (hb : b ∈ C.all_block_ids) (ps : List ℕ) (hps : C.predecessors b = some ps) :
    insert b (inter_ests (ps.map (dom_getD C (dom_step C d b)))) ⊆ dom_step C d b b := by
  have hstep : dom_step C d b =
      Function.update d b (insert b (inter_ests (ps.map (dom_getD C d)))) := by
    simp [dom_step, hps]
  have hbb : dom_step C d b b = insert b (inter_ests (ps.map (dom_getD C d))) := by
    rw [hstep, Function.update_same]
  by_cases hmem : b ∈ ps
  · have h1 : inter_ests (ps.map (dom_getD C (dom_step C d b))) ⊆
        dom_getD C (dom_step C d b) b :=
      inter_ests_subset_mem _ ps b hmem
    have h2 : dom_getD C (dom_step C d b) b =
        insert b (inter_ests (ps.map (dom_getD C d))) := by
      rw [dom_getD, if_pos hb, hbb]
    rw [hbb]
    intro x hx
    rcases Finset.mem_insert.mp hx with rfl | hx'
    · exact Finset.mem_insert_self _ _
    · exact h2 ▸ h1 hx'
  · have hmap : ps.map (dom_getD C (dom_step C d b)) = ps.map (dom_getD C d) := by
      refine List.map_congr_left ?_
      intro p hp
      have hpb : p ≠ b := fun h => hmem (h ▸ hp)
      by_cases hpids : p ∈ C.all_block_ids
      · rw [dom_getD, dom_getD, if_pos hpids, if_pos hpids, hstep,
          Function.update_noteq hpb]
      · rw [dom_getD, dom_getD, if_neg hpids, if_neg hpids]
    rw [hmap, hbb]

theorem dom_pass_from_post_fix (C : Cfg) :
    ∀ (L : List ℕ) {d : ℕ → Finset ℕ},
      (∀ b ∈ L, b ∈ C.all_block_ids) → dom_post_fix C d →
      dom_le C (dom_pass_from C d L) d ∧ dom_post_fix C (dom_pass_from C d L) := by
  intro L
  induction L with
  | nil => intro d _ hpf; exact ⟨fun b => Finset.Subset.refl _, hpf⟩
  | cons b L ih =>
    intro d hL hpf
    rw [dom_pass_from_cons]
    cases hps : C.predecessors b with
    | none =>
      have hstep : dom_step C d b = d := by simp [dom_step, hps]
      rw [hstep]
      exact ih (fun c hc => hL c (List.mem_cons_of_mem b hc)) hpf
    | some ps =>
      have hnew : insert b (inter_ests (ps.map (dom_getD C d))) ⊆ d b :=
        hpf b (hL b (List.mem_cons_self b L)) ps hps
      have hstep : dom_step C d b =
          Function.update d b (insert b (inter_ests (ps.map (dom_getD C d)))) := by
        simp [dom_step, hps]
      have hle' : dom_le C (dom_step C d b) d := by
        intro c
        by_cases hc : c ∈ C.all_block_ids
        · rw [dom_getD, dom_getD, if_pos hc, if_pos hc, hstep]
          by_cases hcb : c = b
          · subst hcb
            rw [Function.update_same]
            exact hnew
          · rw [Function.update_noteq hcb]
        · rw [dom_getD, dom_getD, if_neg hc, if_neg hc]
      have hpf' : dom_post_fix C (dom_step C d b) := by
        intro c hc ps' hps'
        by_cases hcb : c = b
        · subst hcb
          rw [hps] at hps'
          cases hps'
          exact dom_step_self_post_fix C d c hc ps hps
        · have hdc : dom_step C d b c = d c := by
            rw [hstep, Function.update_noteq hcb]
          rw [hdc]
          have hsub : inter_ests (ps'.map (dom_getD C (dom_step C d b))) ⊆
              inter_ests (ps'.map (dom_getD C d)) :=
            inter_ests_mono ps' _ _ (fun p _ => hle' p)
          exact (Finset.insert_subset_insert c hsub).trans (hpf c hc ps' hps')
      obtain ⟨hle2, hpf2⟩ := ih (fun c hc => hL c (List.mem_cons_of_mem b hc)) hpf'
      exact ⟨fun c => (hle2 c).trans (hle' c), hpf2⟩

theorem dom_post_fix_first_pass (C : Cfg) (n : ℕ)
    (hids : C.all_block_ids = List.range n) :
    dom_post_fix C (dom_iter C 1) := by
  cases n with
  | zero =>
    have hnil : C.all_block_ids = [] := by simpa using hids
    intro b hb
    rw [hnil] at hb
    cases hb
  | succ m =>
    have hcons : C.all_block_ids = 0 :: (List.range m).map Nat.succ := by
      rw [hids, List.range_succ_eq_map]
    have h0 : (0 : ℕ) ∈ C.all_block_ids := by rw [hcons]; exact List.mem_cons_self _ _
    have hpf_e0 : dom_post_fix C (dom_step C (dom_init C) 0) := by
      intro b hb ps hps
      by_cases hb0 : b = 0
      · subst hb0
        exact dom_step_self_post_fix C (dom_init C) 0 h0 ps hps
      · have hval : dom_step C (dom_init C) 0 b = C.all_block_ids.toFinset := by
          cases hp0 : C.predecessors 0 with
          | none => simp [dom_step, hp0, dom_init, hb0]
          | some ps0 =>
            simp only [dom_step, hp0]
            rw [Function.update_noteq hb0]
            simp [dom_init, hb0]
        rw [hval]
        intro x hx
        rcases Finset.mem_insert.mp hx with rfl | hx'
        · exact List.mem_toFinset.mpr hb
        · exact inter_ests_bounded C
            (dom_bounded_step C (dom_bounded_init C) 0) ps hx'
    have hiter : dom_iter C 1 =
        dom_pass_from C (dom_step C (dom_init C) 0) ((List.range m).map Nat.succ) := by
      show dom_pass_from C (dom_init C) C.all_block_ids = _
      rw [hcons, dom_pass_from_cons]
    rw [hiter]
    refine (dom_pass_from_post_fix C _ ?_ hpf_e0).2
    intro b hb
    rw [hcons]
    exact List.mem_cons_of_mem 0 hb

theorem dom_iter_post_fix (C : Cfg) (n : ℕ)
    (hids : C.all_block_ids = List.range n) :
    ∀ k, dom_post_fix C (dom_iter C (k + 1)) := by
  intro k
  induction k with
  | zero => exact dom_post_fix_first_pass C n hids
  | succ k ih =>
    exact (dom_pass_from_post_fix C C.all_block_ids (fun _ hb => hb) ih).2

theorem dom_iter_le (C : Cfg) (n : ℕ)
    (hids : C.all_block_ids = List.range n) (k : ℕ) :
    dom_le C (dom_iter C (k + 2)) (dom_iter C (k + 1)) :=
  (dom_pass_from_post_fix C C.all_block_ids (fun _ hb => hb)
    (dom_iter_post_fix C n hids k)).1

theorem sum_map_lt_of_le_of_lt (f g : ℕ → ℕ) :
    ∀ (l : List ℕ), (∀ b ∈ l, f b ≤ g b) → (∃ b ∈ l, f b < g b) →
      (l.map f).sum < (l.map g).sum := by
  intro l
  induction l with
  | nil => rintro _ ⟨b, hb, _⟩; cases hb
  | cons a l ih =>
    rintro hle ⟨b, hb, hlt⟩
    simp only [List.map_cons, List.sum_cons]
    have hle_rest : (l.map f).sum ≤ (l.map g).sum := by
      clear hb hlt ih
      induction l with
      | nil => simp
      | cons c l ihl =>
        simp only [List.map_cons, List.sum_cons]
        exact Nat.add_le_add (hle c (List.mem_cons_of_mem a (List.mem_cons_self c l)))
          (ihl (fun x hx => hle x (by
            rcases List.mem_cons.mp hx with rfl | hx'
            · exact List.mem_cons_self x _
            · exact List.mem_cons_of_mem _ (List.mem_cons_of_mem c hx'))))
    rcases List.mem_cons.mp hb with rfl | hb'
    · exact Nat.add_lt_add_of_lt_of_le hlt hle_rest
    · exact Nat.add_lt_add_of_le_of_lt (hle a (List.mem_cons_self a l))
        (ih (fun x hx => hle x (List.mem_cons_of_mem a hx)) ⟨b, hb', hlt⟩)

theorem dom_measure_lt (C : Cfg) {d e : ℕ → Finset ℕ} (hle : dom_le C d e)
    (hne : ∃ b ∈ C.all_block_ids, d b ≠ e b) :
    dom_measure C d < dom_measure C e := by
  unfold dom_measure
  have hsub : ∀ b ∈ C.all_block_ids, d b ⊆ e b := by
    intro b hb
    have := hle b
    rwa [dom_getD, dom_getD, if_pos hb, if_pos hb] at this
  refine sum_map_lt_of_le_of_lt _ _ _ ?_ ?_
  · exact fun b hb => Finset.card_le_card (hsub b hb)
  · obtain ⟨b, hb, hbne⟩ := hne
    exact ⟨b, hb, Finset.card_lt_card (Finset.ssubset_iff_subset_ne.mpr ⟨hsub b hb, hbne⟩)⟩

theorem dom_measure_first_pass_le (C : Cfg) (n : ℕ)
    (hids : C.all_block_ids = List.range n) :
    dom_measure C (dom_iter C 1) ≤ n * n := by
  have hbdd : dom_bounded C (dom_iter C 1) :=
    dom_bounded_pass_from C C.all_block_ids (dom_bounded_init C)
  have hcard : ∀ b ∈ C.all_block_ids, ((dom_iter C 1) b).card ≤ n := by
    intro b hb
    have h1 := hbdd b
    rw [dom_getD, if_pos hb] at h1
    have h2 : C.all_block_ids.toFinset.card = n := by
      rw [hids, List.toFinset_card_of_nodup (List.nodup_range n), List.length_range]
    exact h2 ▸ Finset.card_le_card h1
  unfold dom_measure
  calc (C.all_block_ids.map (fun b => ((dom_iter C 1) b).card)).sum
      ≤ C.all_block_ids.length * n := by
        have := List.sum_le_card_nsmul
          (C.all_block_ids.map (fun b => ((dom_iter C 1) b).card)) n ?_
        · simpa [smul_eq_mul] using this
        · intro x hx
          obtain ⟨b, hb, rfl⟩ := List.mem_map.mp hx
          exact hcard b hb
    _ = n * n := by rw [hids, List.length_range]

theorem dom_flag_eventually_false (C : Cfg) (n : ℕ)
    (hids : C.all_block_ids = List.range n) :
    ∃ k, k ≤ n * n + 2 ∧ (dom_pass C (dom_iter C k)).2 = false := by
  by_contra hc
  push_neg at hc
  have htrue : ∀ k, k ≤ n * n + 2 → (dom_pass C (dom_iter C k)).2 = true := by
    intro k hk
    cases h : (dom_pass C (dom_iter C k)).2 with
    | false => exact absurd h (hc k hk)
    | true => rfl
  have hnd : C.all_block_ids.Nodup := by rw [hids]; exact List.nodup_range n
  have hstep : ∀ j, 1 + j ≤ n * n + 2 →
      dom_measure C (dom_iter C (1 + j + 1)) < dom_measure C (dom_iter C (1 + j)) := by
    intro j hj
    have hflag := htrue (1 + j) hj
    have hch := dom_fold_flag_true C C.all_block_ids (dom_iter C (1 + j)) hnd hflag
    obtain ⟨b, hb, hbne⟩ := hch
    have hle : dom_le C (dom_iter C (1 + j + 1)) (dom_iter C (1 + j)) := by
      have := dom_iter_le C n hids j
      have harith : j + 2 = 1 + j + 1 := by omega
      have harith2 : j + 1 = 1 + j := by omega
      rwa [harith, harith2] at this
    refine dom_measure_lt C hle ⟨b, hb, ?_⟩
    exact hbne
  have hchain : ∀ j, j ≤ n * n + 1 →
      dom_measure C (dom_iter C (1 + j)) + j ≤ dom_measure C (dom_iter C 1) := by
    intro j
    induction j with
    | zero => intro _; simp
    | succ j ih =>
      intro hj
      have h1 := hstep j (by omega)
      have h2 := ih (by omega)
      have harith : 1 + (j + 1) = 1 + j + 1 := by omega
      rw [harith]
      omega
  have hfinal := hchain (n * n + 1) (Nat.le_refl _)
  have hbound := dom_measure_first_pass_le C n hids
  omega

theorem find_dominators_loop_shift (C : Cfg) :
    ∀ (fuel k i : ℕ), k < fuel →
      (∀ j < k, (dom_pass C (dom_iter C (i + j))).2 = true) →
      (dom_pass C (dom_iter C (i + k))).2 = false →
      find_dominators_loop C fuel (dom_iter C i) = dom_iter C (i + k) := by
  intro fuel
  induction fuel with
  | zero => intro k i hk; omega
  | succ fuel ih =>
    intro k i hk htrue hfalse
    cases k with
    | zero =>
      simp only [Nat.add_zero] at hfalse
      have hstate := (dom_fold_flag_false C C.all_block_ids (dom_iter C i) hfalse).1
      show (let r := dom_pass C (dom_iter C i);
        if r.2 then find_dominators_loop C fuel r.1 else r.1) = dom_iter C (i + 0)
      rw [Nat.add_zero]
      simp only [hfalse, Bool.false_eq_true, if_false]
      rw [dom_pass_state]
      exact hstate
    | succ k =>
      have hflag0 : (dom_pass C (dom_iter C i)).2 = true := by
        have := htrue 0 (Nat.succ_pos k)
        simpa using this
      show (let r := dom_pass C (dom_iter C i);
        if r.2 then find_dominators_loop C fuel r.1 else r.1) = dom_iter C (i + (k + 1))
      simp only [hflag0, if_true]
      rw [dom_pass_state]
      have hnext : dom_pass_from C (dom_iter C i) C.all_block_ids = dom_iter C (i + 1) := rfl
      rw [hnext]
      have h1 := ih k (i + 1) (Nat.lt_of_succ_lt_succ hk)
        (fun j hj => by
          have := htrue (j + 1) (Nat.succ_lt_succ hj)
          have harith : i + (j + 1) = i + 1 + j := by omega
          rwa [harith] at this)
        (by
          have harith : i + (k + 1) = i + 1 + k := by omega
          rwa [harith] at hfalse)
      have harith3 : i + (k + 1) = i + 1 + k := by omega
      rw [harith3]
      exact h1

/-- C4: `find_dominators` terminates: starting from the initialization, the
repeated pass over all blocks reaches, within the loop's fuel, a pass whose
change flag is false (no DOM set changes); the state is then a fixpoint of
the pass and `find_dominators` returns it. The ids of a CFG built from
loaded blocks (or of the mock CFGs in the repository's tests) are 0..n−1;
cycles, self-loops, blocks without predecessors, and edges back into the
entry are all allowed. -/
theorem c4_find_dominators_terminates (C : Cfg) (n : ℕ)
    (hids : C.all_block_ids = List.range n) :
    ∃ k, k < dom_fuel C ∧ (dom_pass C (dom_iter C k)).2 = false ∧
      dom_iter C (k + 1) = dom_iter C k ∧
      find_dominators C = dom_iter C k := by
  obtain ⟨kw, hkw, hkfalse⟩ := dom_flag_eventually_false C n hids
  have hex : ∃ k, (dom_pass C (dom_iter C k)).2 = false := ⟨kw, hkfalse⟩
  classical
  let k0 := Nat.find hex
  have hk0false : (dom_pass C (dom_iter C k0)).2 = false := Nat.find_spec hex
  have hk0min : ∀ j < k0, (dom_pass C (dom_iter C j)).2 = true := by
    intro j hj
    cases h : (dom_pass C (dom_iter C j)).2 with
    | false => exact absurd h (Nat.find_min hex hj)
    | true => rfl
  have hk0le : k0 ≤ kw := Nat.find_min' hex hkfalse
  have hfuel : dom_fuel C = n * n + 3 := by
    unfold dom_fuel
    rw [hids, List.length_range]
  have hk0fuel : k0 < dom_fuel C := by omega
  refine ⟨k0, hk0fuel, hk0false, ?_, ?_⟩
  · exact (dom_fold_flag_false C C.all_block_ids (dom_iter C k0) hk0false).1
  · have := find_dominators_loop_shift C (dom_fuel C) k0 0 hk0fuel
      (fun j hj => by simpa using hk0min j hj) (by simpa using hk0false)
    unfold find_dominators
    simpa using this

/-- C4 witness: the natural-loop CFG (with a back edge) reaches its dominator
fixpoint. -/
theorem c4_find_dominators_terminates_witness :
    ∃ k, k < dom_fuel cfg_loop ∧ (dom_pass cfg_loop (dom_iter cfg_loop k)).2 = false ∧
      dom_iter cfg_loop (k + 1) = dom_iter cfg_loop k ∧
      find_dominators cfg_loop = dom_iter cfg_loop k :=
  c4_find_dominators_terminates cfg_loop 4 rfl

end BrilNW
